import Mathlib

/-!
Verification of the SVG path-data parser (`svgparser.py`).

The parser is embedded shallowly: Python strings become `List Char`, string
indices become `Nat`, and every fallible function returns `Except PErr α`.
Python's `int(...)` / `float(...)` decoders are modelled by `pyInt` / `pyFloat`,
with `float` values represented as the exact decimal rational they denote
(abstracting the IEEE-754 rounding of Python floats).  An unguarded Python
string access `d[pos]` with `pos` out of range raises `IndexError`; such
accesses are modelled by `List.get?` and the `PErr.indexError` constructor.
-/

namespace Svg

/-- Separator characters: `sep_chars = ' ,\n'` in the source. -/
def sep_chars : List Char := [' ', ',', '\n']

/-- The minus-sign character. -/
def minus_sign : Char := '-'

/-- The decimal-point character. -/
def decimal_point : Char := '.'

/-- Digit characters: `numbers = '0123456789'` in the source. -/
def numbers : List Char := ['0', '1', '2', '3', '4', '5', '6', '7', '8', '9']

/-- Characters that may start or continue a numeric literal
(`numberic_chars = numbers + minus_sign + decimal_point`, name as in source). -/
def numberic_chars : List Char := numbers ++ [minus_sign, decimal_point]

/-- Moveto command letters `'M'` (absolute) and `'m'` (relative). -/
def moveto_commands : List Char := ['M', 'm']

/-- Cubic curveto command letters `'C'` and `'c'`. -/
def curveto_commands : List Char := ['C', 'c']

/-- Smooth curveto command letters `'S'` and `'s'`. -/
def smooth_curveto_commands : List Char := ['S', 's']

/-- All recognized command letters
(`commands = moveto_commands + curveto_commands + smooth_curveto_commands`). -/
def commands : List Char :=
  moveto_commands ++ curveto_commands ++ smooth_curveto_commands

/-- Ways a parse can fail.  The Python code raises `Exception` with distinct
message shapes; each shape gets one constructor.  `indexError` models Python's
built-in `IndexError` raised by an out-of-range string access `d[pos]` (the
recorded `Nat` is the offending index, which the Python exception does not
carry; it is kept here so statements can name the access). -/
inductive PErr where
  /-- `'Cannot parse empty string!'` -/
  | emptyInput : PErr
  /-- `'Unexpected end of data at {pos} in {repr(d)}!'` -/
  | unexpectedEndOfData : Nat → PErr
  /-- `'Unexpected {repr(d[pos])} at {pos} in {repr(d)}!'`; the `Char` is the
  character `d[pos]` named by the message. -/
  | unexpectedChar : Char → Nat → PErr
  /-- `'Unsupported command {c} at {pos} in {repr(d)}!'` -/
  | unsupportedCommand : Char → Nat → PErr
  /-- Python `IndexError` from evaluating `d[pos]` with `pos ≥ len(d)`. -/
  | indexError : Nat → PErr
deriving DecidableEq

/-- A numeric value: Python `int` or Python `float` (the latter modelled as the
exact decimal rational denoted by the parsed literal). -/
inductive Value where
  | int : ℤ → Value
  | float : ℚ → Value
deriving DecidableEq

deriving instance DecidableEq for Except

/-- `raise_unexpected_char(d, pos)`: the f-string evaluates `d[pos]`, so the
call itself raises `IndexError` when `pos` is out of range. -/
def raise_unexpected_char (α : Type) (d : List Char) (pos : Nat) : Except PErr α :=
  match d.get? pos with
  | some c => .error (.unexpectedChar c pos)
  | none => .error (.indexError pos)

/-- `raise_unexpected_end_of_data(d, pos)`: no string indexing, always the
diagnostic error. -/
def raise_unexpected_end_of_data (α : Type) (_d : List Char) (pos : Nat) :
    Except PErr α :=
  .error (.unexpectedEndOfData pos)

/-- `skip_seps(d, pos)`: advance past consecutive separator characters. -/
def skip_seps (d : List Char) (pos : Nat) : Nat :=
  if h : pos < d.length then
    if d.get ⟨pos, h⟩ ∈ sep_chars then skip_seps d (pos + 1) else pos
  else pos
termination_by d.length - pos
decreasing_by simp_wf; omega

/-- `skip_numbers(d, pos)`: advance past consecutive digit characters. -/
def skip_numbers (d : List Char) (pos : Nat) : Nat :=
  if h : pos < d.length then
    if d.get ⟨pos, h⟩ ∈ numbers then skip_numbers d (pos + 1) else pos
  else pos
termination_by d.length - pos
decreasing_by simp_wf; omega

/-- Python slice `d[a:b]` (for the in-range uses made by the parser). -/
def pySlice (d : List Char) (a b : Nat) : List Char := (d.drop a).take (b - a)

/-- Numeric value of a decimal digit character. -/
def digitVal (c : Char) : Nat := c.toNat - 48

/-- Value of a list of decimal digit characters, most significant first. -/
def digitsToNat (cs : List Char) : Nat :=
  cs.foldl (fun a c => a * 10 + digitVal c) 0

/-- Python `int(s)` on the substrings produced by `parse_number`
(an optional minus sign followed by digits). -/
def pyInt (cs : List Char) : Int :=
  if cs.head? = some minus_sign then -(digitsToNat (cs.drop 1) : Int)
  else (digitsToNat cs : Int)

/-- Value of an unsigned decimal literal `⟨digits⟩.⟨digits⟩` as an exact
rational. -/
def pyFracVal (cs : List Char) : ℚ :=
  let ip := cs.takeWhile (fun c => c ≠ decimal_point)
  let fp := (cs.dropWhile (fun c => c ≠ decimal_point)).drop 1
  (digitsToNat ip : ℚ) + (digitsToNat fp : ℚ) / (10 : ℚ) ^ fp.length

/-- Python `float(s)` on the substrings produced by `parse_number`
(an optional minus sign, digits, a decimal point, digits), modelled as the
exact decimal rational the literal denotes. -/
def pyFloat (cs : List Char) : ℚ :=
  if cs.head? = some minus_sign then -(pyFracVal (cs.drop 1))
  else pyFracVal cs

/-- `parse_number(d, pos)`: skip separators, parse an optionally signed,
optionally fractional numeric literal.  Mirrors the source line by line;
the two unguarded `d[pos]` accesses (after a consumed minus sign and after a
consumed decimal point) are modelled with `List.get?`, `none` giving
`PErr.indexError`. -/
def parse_number (d : List Char) (pos0 : Nat) : Except PErr (Nat × Value) :=
  let d_length := d.length
  let pos := skip_seps d pos0
  if h1 : pos < d_length then
    if d.get ⟨pos, h1⟩ ∈ numberic_chars then
      let number_start_pos := pos
      -- we may have negative value
      let pos := if d.get ⟨pos, h1⟩ = minus_sign then pos + 1 else pos
      -- `if not d[pos] in numbers: raise_unexpected_char(d, pos)`;
      -- evaluating `d[pos]` itself can raise IndexError
      match d.get? pos with
      | none => .error (.indexError pos)
      | some c =>
        if c ∈ numbers then
          let pos := skip_numbers d pos
          if h3 : pos < d_length then
            if d.get ⟨pos, h3⟩ = decimal_point then
              let pos := pos + 1
              -- there may be a floating-point number
              match d.get? pos with
              | none => .error (.indexError pos)
              | some c2 =>
                if c2 ∈ numbers then
                  let pos := skip_numbers d pos
                  .ok (pos, .float (pyFloat (pySlice d number_start_pos pos)))
                else raise_unexpected_char _ d pos
            else .ok (pos, .int (pyInt (pySlice d number_start_pos pos)))
          else .ok (pos, .int (pyInt (pySlice d number_start_pos pos)))
        else raise_unexpected_char _ d pos
    else raise_unexpected_char _ d pos
  else raise_unexpected_end_of_data _ d pos

/-- `parse_cooridate(d, pos)` (name as in source): two numbers with separator
tolerance and an end-of-input check between them. -/
def parse_cooridate (d : List Char) (pos0 : Nat) :
    Except PErr (Nat × Value × Value) :=
  let d_length := d.length
  match parse_number d pos0 with
  | .error e => .error e
  | .ok (pos, x) =>
    let pos := skip_seps d pos
    if pos < d_length then
      let pos := skip_seps d pos
      match parse_number d pos with
      | .error e => .error e
      | .ok (pos, y) => .ok (pos, x, y)
    else raise_unexpected_end_of_data _ d pos

/-- A decoded path command: a command letter and its argument tuple. -/
structure PathCommand where
  command : Char
  args : List Value
deriving DecidableEq

/-- `parse_command(c, d, pos)`: dispatch on the command letter and consume its
fixed-arity parameter list. -/
def parse_command (c : Char) (d : List Char) (pos : Nat) :
    Except PErr (Nat × PathCommand) :=
  if c ∈ moveto_commands then
    match parse_cooridate d pos with
    | .error e => .error e
    | .ok (pos, x, y) => .ok (pos, ⟨c, [x, y]⟩)
  else if c ∈ curveto_commands then
    match parse_cooridate d pos with
    | .error e => .error e
    | .ok (pos, x1, y1) =>
      match parse_cooridate d pos with
      | .error e => .error e
      | .ok (pos, x2, y2) =>
        match parse_cooridate d pos with
        | .error e => .error e
        | .ok (pos, x, y) => .ok (pos, ⟨c, [x1, y1, x2, y2, x, y]⟩)
  else if c ∈ smooth_curveto_commands then
    match parse_cooridate d pos with
    | .error e => .error e
    | .ok (pos, x2, y2) =>
      match parse_cooridate d pos with
      | .error e => .error e
      | .ok (pos, x, y) => .ok (pos, ⟨c, [x2, y2, x, y]⟩)
  else .error (.unsupportedCommand c pos)

/-! Basic facts about the scanners, needed (among others) to justify
termination of the top-level driver loop. -/

theorem skip_seps_le (d : List Char) (pos : Nat) : pos ≤ skip_seps d pos := by
  induction pos using skip_seps.induct d with
  | case1 x h hsep ih =>
    rw [skip_seps]
    simp only [List.get_eq_getElem] at hsep ⊢
    simp only [h, dite_true, hsep, if_true]
    omega
  | case2 x h hsep =>
    rw [skip_seps]
    simp only [List.get_eq_getElem] at hsep ⊢
    simp [h, hsep]
  | case3 x h => rw [skip_seps]; simp [h]

theorem skip_numbers_le (d : List Char) (pos : Nat) : pos ≤ skip_numbers d pos := by
  induction pos using skip_numbers.induct d with
  | case1 x h hdig ih =>
    rw [skip_numbers]
    simp only [List.get_eq_getElem] at hdig ⊢
    simp only [h, dite_true, hdig, if_true]
    omega
  | case2 x h hdig =>
    rw [skip_numbers]
    simp only [List.get_eq_getElem] at hdig ⊢
    simp [h, hdig]
  | case3 x h => rw [skip_numbers]; simp [h]

/-- Strict progress of `skip_numbers` from a digit character. -/
theorem skip_numbers_lt {d : List Char} {pos : Nat} {c : Char}
    (hg : d.get? pos = some c) (hc : c ∈ numbers) : pos < skip_numbers d pos := by
  obtain ⟨hlt, hget⟩ := List.get?_eq_some.mp hg
  rw [skip_numbers]
  simp only [hlt, dite_true, hget, hc, if_true]
  have := skip_numbers_le d (pos + 1)
  omega

theorem parse_number_ok_inv {d : List Char} {pos0 p' : Nat} {v : Value}
    (h : parse_number d pos0 = .ok (p', v)) :
    ∃ s q, s = skip_seps d pos0 ∧
      (∃ c0, d.get? s = some c0 ∧ c0 ∈ numberic_chars ∧
        ((c0 = minus_sign ∧ q = s + 1) ∨ (c0 ≠ minus_sign ∧ q = s))) ∧
      (∃ c1, d.get? q = some c1 ∧ c1 ∈ numbers) ∧
      ((p' = skip_numbers d q ∧ v = .int (pyInt (pySlice d s p')) ∧
          (d.get? p' = none ∨ ∃ c3, d.get? p' = some c3 ∧ c3 ≠ decimal_point)) ∨
        (∃ r c2, r = skip_numbers d q ∧ d.get? r = some decimal_point ∧
          d.get? (r + 1) = some c2 ∧ c2 ∈ numbers ∧
          p' = skip_numbers d (r + 1) ∧
          v = .float (pyFloat (pySlice d s p')))) := by
  simp only [parse_number] at h
  split at h
  case isFalse h1 => simp [raise_unexpected_end_of_data] at h
  case isTrue h1 =>
  split at h
  case isFalse hnum => simp [raise_unexpected_char] at h; split at h <;> simp_all
  case isTrue hnum =>
  have hget0 : d.get? (skip_seps d pos0) = some (d.get ⟨skip_seps d pos0, h1⟩) :=
    List.get?_eq_some.mpr ⟨h1, rfl⟩
  by_cases hminus : d.get ⟨skip_seps d pos0, h1⟩ = minus_sign
  · rw [if_pos hminus] at h
    refine ⟨skip_seps d pos0, skip_seps d pos0 + 1, rfl,
      ⟨d.get ⟨skip_seps d pos0, h1⟩, hget0, hnum, .inl ⟨hminus, rfl⟩⟩, ?_⟩
    split at h
    next => simp at h
    next c hc =>
      split at h
      next hcnum =>
        refine ⟨⟨c, hc, hcnum⟩, ?_⟩
        split at h
        next h3 =>
          split at h
          next hdp =>
            split at h
            next => simp at h
            next c2 hc2 =>
              split at h
              next hc2num =>
                simp only [Except.ok.injEq, Prod.mk.injEq] at h
                have hget3 : d.get? (skip_numbers d (skip_seps d pos0 + 1)) =
                    some (d.get ⟨skip_numbers d (skip_seps d pos0 + 1), h3⟩) :=
                  List.get?_eq_some.mpr ⟨h3, rfl⟩
                obtain ⟨hp, hv⟩ := h
                subst hp
                subst hv
                exact .inr ⟨_, c2, rfl, by rw [hdp] at hget3; exact hget3,
                  hc2, hc2num, rfl, rfl⟩
              next => simp only [raise_unexpected_char, hc2] at h; simp at h
          next hdp =>
            simp only [Except.ok.injEq, Prod.mk.injEq] at h
            have hget3 : d.get? (skip_numbers d (skip_seps d pos0 + 1)) =
                some (d.get ⟨skip_numbers d (skip_seps d pos0 + 1), h3⟩) :=
              List.get?_eq_some.mpr ⟨h3, rfl⟩
            obtain ⟨hp, hv⟩ := h
            subst hp
            subst hv
            exact .inl ⟨rfl, rfl, .inr ⟨_, hget3, hdp⟩⟩
        next h3 =>
          simp only [Except.ok.injEq, Prod.mk.injEq] at h
          obtain ⟨hp, hv⟩ := h
          subst hp
          subst hv
          exact .inl ⟨rfl, rfl, .inl (List.get?_eq_none.mpr (by omega))⟩
      next => simp only [raise_unexpected_char, hc] at h; simp at h
  · rw [if_neg hminus] at h
    refine ⟨skip_seps d pos0, skip_seps d pos0, rfl,
      ⟨d.get ⟨skip_seps d pos0, h1⟩, hget0, hnum, .inr ⟨hminus, rfl⟩⟩, ?_⟩
    split at h
    next => simp [hget0] at h
    next c hc =>
      split at h
      next hcnum =>
        refine ⟨⟨c, hc, hcnum⟩, ?_⟩
        split at h
        next h3 =>
          split at h
          next hdp =>
            split at h
            next => simp at h
            next c2 hc2 =>
              split at h
              next hc2num =>
                simp only [Except.ok.injEq, Prod.mk.injEq] at h
                have hget3 : d.get? (skip_numbers d (skip_seps d pos0)) =
                    some (d.get ⟨skip_numbers d (skip_seps d pos0), h3⟩) :=
                  List.get?_eq_some.mpr ⟨h3, rfl⟩
                obtain ⟨hp, hv⟩ := h
                subst hp
                subst hv
                exact .inr ⟨_, c2, rfl, by rw [hdp] at hget3; exact hget3,
                  hc2, hc2num, rfl, rfl⟩
              next => simp only [raise_unexpected_char, hc2] at h; simp at h
          next hdp =>
            simp only [Except.ok.injEq, Prod.mk.injEq] at h
            have hget3 : d.get? (skip_numbers d (skip_seps d pos0)) =
                some (d.get ⟨skip_numbers d (skip_seps d pos0), h3⟩) :=
              List.get?_eq_some.mpr ⟨h3, rfl⟩
            obtain ⟨hp, hv⟩ := h
            subst hp
            subst hv
            exact .inl ⟨rfl, rfl, .inr ⟨_, hget3, hdp⟩⟩
        next h3 =>
          simp only [Except.ok.injEq, Prod.mk.injEq] at h
          obtain ⟨hp, hv⟩ := h
          subst hp
          subst hv
          exact .inl ⟨rfl, rfl, .inl (List.get?_eq_none.mpr (by omega))⟩
      next => simp only [raise_unexpected_char, hc] at h; simp at h

/-- A successful `parse_number` strictly advances the cursor. -/
theorem parse_number_lt {d : List Char} {pos0 p' : Nat} {v : Value}
    (h : parse_number d pos0 = .ok (p', v)) : pos0 < p' := by
  obtain ⟨s, q, hs, ⟨c0, _, _, hq⟩, ⟨c1, hc1, hc1n⟩, hbr⟩ := parse_number_ok_inv h
  have hsle : pos0 ≤ s := hs ▸ skip_seps_le d pos0
  have hql : q < skip_numbers d q := skip_numbers_lt hc1 hc1n
  have hqs : s ≤ q := by rcases hq with ⟨_, rfl⟩ | ⟨_, rfl⟩ <;> omega
  rcases hbr with ⟨rfl, _, _⟩ | ⟨r, c2, hr, _, hg2, hn2, rfl, _⟩
  · omega
  · have h2 : r + 1 < skip_numbers d (r + 1) := skip_numbers_lt hg2 hn2
    omega

/-- A successful `parse_cooridate` strictly advances the cursor. -/
theorem parse_cooridate_lt {d : List Char} {pos0 p' : Nat} {x y : Value}
    (h : parse_cooridate d pos0 = .ok (p', x, y)) : pos0 < p' := by
  simp only [parse_cooridate] at h
  split at h
  · simp at h
  case h_2 pos1 x1 heq1 =>
    split at h
    case isFalse => simp [raise_unexpected_end_of_data] at h
    case isTrue h2 =>
      split at h
      · simp at h
      case h_2 pos2 y1 heq2 =>
        simp only [Except.ok.injEq, Prod.mk.injEq] at h
        have e1 := parse_number_lt heq1
        have e2 := parse_number_lt heq2
        have e3 := skip_seps_le d pos1
        have e4 := skip_seps_le d (skip_seps d pos1)
        omega

/-- A successful `parse_command` strictly advances the cursor. -/
theorem parse_command_lt {c : Char} {d : List Char} {pos0 p' : Nat}
    {pc : PathCommand} (h : parse_command c d pos0 = .ok (p', pc)) :
    pos0 < p' := by
  simp only [parse_command] at h
  split at h
  · split at h
    · simp at h
    case h_2 heq =>
      simp only [Except.ok.injEq, Prod.mk.injEq] at h
      have := parse_cooridate_lt heq
      omega
  · split at h
    · split at h
      · simp at h
      case h_2 pos1 x1 y1 heq1 =>
        split at h
        · simp at h
        case h_2 pos2 x2 y2 heq2 =>
          split at h
          · simp at h
          case h_2 pos3 x3 y3 heq3 =>
            simp only [Except.ok.injEq, Prod.mk.injEq] at h
            have e1 := parse_cooridate_lt heq1
            have e2 := parse_cooridate_lt heq2
            have e3 := parse_cooridate_lt heq3
            omega
    · split at h
      · split at h
        · simp at h
        case h_2 pos1 x1 y1 heq1 =>
          split at h
          · simp at h
          case h_2 pos2 x2 y2 heq2 =>
            simp only [Except.ok.injEq, Prod.mk.injEq] at h
            have e1 := parse_cooridate_lt heq1
            have e2 := parse_cooridate_lt heq2
            omega
      · simp at h

/-- The driver's `while pos < d_length` loop, with `last_command` threaded as
explicit state.  Each iteration reads `c = d[pos]`, advances `pos`, dispatches
(either on `c` if it is a command letter, or on `last_command` if `c` can start
a numeric literal and a last command is set, rewinding `pos` by one), appends
the record, skips trailing separators, and continues; any other character
reaches `raise_unexpected_char(d, pos)` with the already-advanced `pos`. -/
def parse_loop (d : List Char) (pos : Nat) (last_command : Option Char) :
    Except PErr (List PathCommand) :=
  if h : pos < d.length then
    let c := d.get ⟨pos, h⟩
    if c ∈ commands then
      match hpc : parse_command c d (pos + 1) with
      | .error e => .error e
      | .ok (pos2, path_command) =>
        match parse_loop d (skip_seps d pos2) (some c) with
        | .error e => .error e
        | .ok rest => .ok (path_command :: rest)
    else
      match last_command with
      | some lc =>
        if c ∈ numberic_chars then
          match hpc : parse_command lc d (pos + 1 - 1) with
          | .error e => .error e
          | .ok (pos2, path_command) =>
            match parse_loop d (skip_seps d pos2) last_command with
            | .error e => .error e
            | .ok rest => .ok (path_command :: rest)
        else raise_unexpected_char _ d (pos + 1)
      | none => raise_unexpected_char _ d (pos + 1)
  else .ok []
termination_by d.length - pos
decreasing_by
  all_goals
    (have h2 := parse_command_lt hpc
     have h3 := skip_seps_le d pos2
     simp_wf
     omega)

/-- `parse_d_property(d)`: reject the empty string, skip leading separators
(twice, as the source does), then run the driver loop with no active command. -/
def parse_d_property (d : List Char) : Except PErr (List PathCommand) :=
  if d.length = 0 then .error .emptyInput
  else
    let pos := skip_seps d 0
    let pos := skip_seps d pos
    parse_loop d pos none

/-! Executable twins.

The faithful definitions above recurse on the measure `d.length - pos`, so the
kernel cannot evaluate them on concrete inputs.  The `..._fuel` / `..._run`
definitions below are structurally recursive copies (fuel-indexed where
recursion occurs), proved extensionally equal to the faithful definitions; all
concrete evaluations go through them. -/

/-- Structural twin of `skip_seps`. -/
def skip_seps_fuel : Nat → List Char → Nat → Nat
  | 0, _, pos => pos
  | n + 1, d, pos =>
    if h : pos < d.length then
      if d.get ⟨pos, h⟩ ∈ sep_chars then skip_seps_fuel n d (pos + 1) else pos
    else pos

/-- Structural twin of `skip_numbers`. -/
def skip_numbers_fuel : Nat → List Char → Nat → Nat
  | 0, _, pos => pos
  | n + 1, d, pos =>
    if h : pos < d.length then
      if d.get ⟨pos, h⟩ ∈ numbers then skip_numbers_fuel n d (pos + 1) else pos
    else pos

theorem skip_seps_fuel_eq (d : List Char) :
    ∀ n pos, d.length - pos ≤ n → skip_seps_fuel n d pos = skip_seps d pos := by
  intro n
  induction n with
  | zero =>
    intro pos hn
    have h : ¬pos < d.length := by omega
    rw [skip_seps]
    simp [skip_seps_fuel, h]
  | succ n ih =>
    intro pos hn
    rw [skip_seps]
    simp only [skip_seps_fuel]
    by_cases h : pos < d.length
    · simp only [dif_pos h]
      by_cases hsep : d.get ⟨pos, h⟩ ∈ sep_chars
      · simp only [hsep, if_true]
        exact ih (pos + 1) (by omega)
      · simp only [List.get_eq_getElem] at hsep
        simp [hsep]
    · simp [h]

theorem skip_numbers_fuel_eq (d : List Char) :
    ∀ n pos, d.length - pos ≤ n →
      skip_numbers_fuel n d pos = skip_numbers d pos := by
  intro n
  induction n with
  | zero =>
    intro pos hn
    have h : ¬pos < d.length := by omega
    rw [skip_numbers]
    simp [skip_numbers_fuel, h]
  | succ n ih =>
    intro pos hn
    rw [skip_numbers]
    simp only [skip_numbers_fuel]
    by_cases h : pos < d.length
    · simp only [dif_pos h]
      by_cases hdig : d.get ⟨pos, h⟩ ∈ numbers
      · simp only [hdig, if_true]
        exact ih (pos + 1) (by omega)
      · simp only [List.get_eq_getElem] at hdig
        simp [hdig]
    · simp [h]

theorem skip_seps_fuel_spec (d : List Char) (pos : Nat) :
    skip_seps_fuel d.length d pos = skip_seps d pos :=
  skip_seps_fuel_eq d d.length pos (by omega)

theorem skip_numbers_fuel_spec (d : List Char) (pos : Nat) :
    skip_numbers_fuel d.length d pos = skip_numbers d pos :=
  skip_numbers_fuel_eq d d.length pos (by omega)

/-- Executable twin of `parse_number`. -/
def parse_number_run (d : List Char) (pos0 : Nat) : Except PErr (Nat × Value) :=
  let d_length := d.length
  let pos := skip_seps_fuel d.length d pos0
  if h1 : pos < d_length then
    if d.get ⟨pos, h1⟩ ∈ numberic_chars then
      let number_start_pos := pos
      let pos := if d.get ⟨pos, h1⟩ = minus_sign then pos + 1 else pos
      match d.get? pos with
      | none => .error (.indexError pos)
      | some c =>
        if c ∈ numbers then
          let pos := skip_numbers_fuel d.length d pos
          if h3 : pos < d_length then
            if d.get ⟨pos, h3⟩ = decimal_point then
              let pos := pos + 1
              match d.get? pos with
              | none => .error (.indexError pos)
              | some c2 =>
                if c2 ∈ numbers then
                  let pos := skip_numbers_fuel d.length d pos
                  .ok (pos, .float (pyFloat (pySlice d number_start_pos pos)))
                else raise_unexpected_char _ d pos
            else .ok (pos, .int (pyInt (pySlice d number_start_pos pos)))
          else .ok (pos, .int (pyInt (pySlice d number_start_pos pos)))
        else raise_unexpected_char _ d pos
    else raise_unexpected_char _ d pos
  else raise_unexpected_end_of_data _ d pos

theorem parse_number_run_eq (d : List Char) (pos0 : Nat) :
    parse_number_run d pos0 = parse_number d pos0 := by
  rw [parse_number_run, parse_number]
  simp only [skip_seps_fuel_spec, skip_numbers_fuel_spec]

/-- Executable twin of `parse_cooridate`. -/
def parse_cooridate_run (d : List Char) (pos0 : Nat) :
    Except PErr (Nat × Value × Value) :=
  let d_length := d.length
  match parse_number_run d pos0 with
  | .error e => .error e
  | .ok (pos, x) =>
    let pos := skip_seps_fuel d.length d pos
    if pos < d_length then
      let pos := skip_seps_fuel d.length d pos
      match parse_number_run d pos with
      | .error e => .error e
      | .ok (pos, y) => .ok (pos, x, y)
    else raise_unexpected_end_of_data _ d pos

theorem parse_cooridate_run_eq (d : List Char) (pos0 : Nat) :
    parse_cooridate_run d pos0 = parse_cooridate d pos0 := by
  rw [parse_cooridate_run, parse_cooridate]
  simp only [skip_seps_fuel_spec, parse_number_run_eq]

/-- Executable twin of `parse_command`. -/
def parse_command_run (c : Char) (d : List Char) (pos : Nat) :
    Except PErr (Nat × PathCommand) :=
  if c ∈ moveto_commands then
    match parse_cooridate_run d pos with
    | .error e => .error e
    | .ok (pos, x, y) => .ok (pos, ⟨c, [x, y]⟩)
  else if c ∈ curveto_commands then
    match parse_cooridate_run d pos with
    | .error e => .error e
    | .ok (pos, x1, y1) =>
      match parse_cooridate_run d pos with
      | .error e => .error e
      | .ok (pos, x2, y2) =>
        match parse_cooridate_run d pos with
        | .error e => .error e
        | .ok (pos, x, y) => .ok (pos, ⟨c, [x1, y1, x2, y2, x, y]⟩)
  else if c ∈ smooth_curveto_commands then
    match parse_cooridate_run d pos with
    | .error e => .error e
    | .ok (pos, x2, y2) =>
      match parse_cooridate_run d pos with
      | .error e => .error e
      | .ok (pos, x, y) => .ok (pos, ⟨c, [x2, y2, x, y]⟩)
  else .error (.unsupportedCommand c pos)

theorem parse_command_run_eq (c : Char) (d : List Char) (pos : Nat) :
    parse_command_run c d pos = parse_command c d pos := by
  rw [parse_command_run, parse_command]
  simp only [parse_cooridate_run_eq]

/-- Fuel-indexed structural twin of `parse_loop`. -/
def parse_loop_fuel : Nat → List Char → Nat → Option Char →
    Except PErr (List PathCommand)
  | 0, _, _, _ => .ok []
  | fuel + 1, d, pos, last_command =>
    if h : pos < d.length then
      let c := d.get ⟨pos, h⟩
      if c ∈ commands then
        match parse_command_run c d (pos + 1) with
        | .error e => .error e
        | .ok (pos2, path_command) =>
          match parse_loop_fuel fuel d (skip_seps_fuel d.length d pos2) (some c) with
          | .error e => .error e
          | .ok rest => .ok (path_command :: rest)
      else
        match last_command with
        | some lc =>
          if c ∈ numberic_chars then
            match parse_command_run lc d (pos + 1 - 1) with
            | .error e => .error e
            | .ok (pos2, path_command) =>
              match parse_loop_fuel fuel d (skip_seps_fuel d.length d pos2)
                  last_command with
              | .error e => .error e
              | .ok rest => .ok (path_command :: rest)
          else raise_unexpected_char _ d (pos + 1)
        | none => raise_unexpected_char _ d (pos + 1)
    else .ok []

theorem parse_loop_fuel_eq (d : List Char) :
    ∀ n pos last, d.length - pos ≤ n →
      parse_loop_fuel n d pos last = parse_loop d pos last := by
  intro n
  induction n with
  | zero =>
    intro pos last hn
    have h : ¬pos < d.length := by omega
    rw [parse_loop]
    simp [parse_loop_fuel, h]
  | succ n ih =>
    intro pos last hn
    rw [parse_loop]
    simp only [parse_loop_fuel, skip_seps_fuel_spec, parse_command_run_eq]
    by_cases h : pos < d.length
    · simp only [dif_pos h]
      by_cases hc : d.get ⟨pos, h⟩ ∈ commands
      · simp only [hc, if_true]
        cases hpc : parse_command (d.get ⟨pos, h⟩) d (pos + 1) with
        | error e => rfl
        | ok r =>
          obtain ⟨pos2, path_command⟩ := r
          have := parse_command_lt hpc
          have := skip_seps_le d pos2
          dsimp only
          rw [ih (skip_seps d pos2) (some (d.get ⟨pos, h⟩)) (by omega)]
      · simp only [hc, if_false]
        cases last with
        | none => rfl
        | some lc =>
          by_cases hn2 : d.get ⟨pos, h⟩ ∈ numberic_chars
          · simp only [hn2, if_true]
            cases hpc : parse_command lc d (pos + 1 - 1) with
            | error e => rfl
            | ok r =>
              obtain ⟨pos2, path_command⟩ := r
              have h2 := parse_command_lt hpc
              have := skip_seps_le d pos2
              dsimp only
              rw [ih (skip_seps d pos2) (some lc) (by omega)]
          · simp only [List.get_eq_getElem] at hn2
            simp [hn2]
    · simp [h]

/-- Executable twin of `parse_d_property`. -/
def parse_d_property_run (d : List Char) : Except PErr (List PathCommand) :=
  if d.length = 0 then .error .emptyInput
  else
    let pos := skip_seps_fuel d.length d 0
    let pos := skip_seps_fuel d.length d pos
    parse_loop_fuel d.length d pos none

theorem parse_d_property_run_eq (d : List Char) :
    parse_d_property_run d = parse_d_property d := by
  rw [parse_d_property_run, parse_d_property]
  simp only [skip_seps_fuel_spec]
  by_cases h : d.length = 0
  · simp [h]
  · simp only [h, if_false]
    exact parse_loop_fuel_eq d d.length _ none (by omega)

/-! Characterizations of the scanners, and structural facts about the parsing
functions used by the claims. -/

/-- `skip_seps` stops exactly at the first position ≥ `pos` holding a
non-separator (or the end of the input). -/
theorem skip_seps_eq_stop (d : List Char) (stop : Nat)
    (hend : d.get? stop = none ∨ ∃ c, d.get? stop = some c ∧ c ∉ sep_chars) :
    ∀ pos, pos ≤ stop →
      (∀ i, pos ≤ i → i < stop → ∃ c, d.get? i = some c ∧ c ∈ sep_chars) →
      skip_seps d pos = stop := by
  intro pos
  induction pos using skip_seps.induct d with
  | case1 x h hsep ih =>
    intro hle hrun
    rcases Nat.eq_or_lt_of_le hle with rfl | hlt
    · exfalso
      have hx : d.get? x = some (d.get ⟨x, h⟩) := List.get?_eq_some.mpr ⟨h, rfl⟩
      rcases hend with hnone | ⟨c, hc, hcs⟩
      · rw [hx] at hnone; exact Option.noConfusion hnone
      · rw [hx] at hc; exact hcs (Option.some.inj hc ▸ hsep)
    · rw [skip_seps]
      simp only [dif_pos h, hsep, if_true]
      exact ih (by omega) (fun i h1 h2 => hrun i (by omega) h2)
  | case2 x h hsep =>
    intro hle hrun
    rcases Nat.eq_or_lt_of_le hle with rfl | hlt
    · rw [skip_seps]
      simp only [List.get_eq_getElem] at hsep
      simp [h, hsep]
    · exfalso
      obtain ⟨c, hc, hcs⟩ := hrun x le_rfl hlt
      have hx : d.get? x = some (d.get ⟨x, h⟩) := List.get?_eq_some.mpr ⟨h, rfl⟩
      rw [hx] at hc
      exact hsep ((Option.some.inj hc).symm ▸ hcs)
  | case3 x h =>
    intro hle hrun
    rcases Nat.eq_or_lt_of_le hle with rfl | hlt
    · rw [skip_seps]; simp [h]
    · exfalso
      obtain ⟨c, hc, _⟩ := hrun x le_rfl hlt
      rw [List.get?_eq_none.mpr (by omega)] at hc
      exact Option.noConfusion hc

/-- `skip_numbers` stops exactly at the first position ≥ `pos` holding a
non-digit (or the end of the input). -/
theorem skip_numbers_eq_stop (d : List Char) (stop : Nat)
    (hend : d.get? stop = none ∨ ∃ c, d.get? stop = some c ∧ c ∉ numbers) :
    ∀ pos, pos ≤ stop →
      (∀ i, pos ≤ i → i < stop → ∃ c, d.get? i = some c ∧ c ∈ numbers) →
      skip_numbers d pos = stop := by
  intro pos
  induction pos using skip_numbers.induct d with
  | case1 x h hdig ih =>
    intro hle hrun
    rcases Nat.eq_or_lt_of_le hle with rfl | hlt
    · exfalso
      have hx : d.get? x = some (d.get ⟨x, h⟩) := List.get?_eq_some.mpr ⟨h, rfl⟩
      rcases hend with hnone | ⟨c, hc, hcs⟩
      · rw [hx] at hnone; exact Option.noConfusion hnone
      · rw [hx] at hc; exact hcs (Option.some.inj hc ▸ hdig)
    · rw [skip_numbers]
      simp only [dif_pos h, hdig, if_true]
      exact ih (by omega) (fun i h1 h2 => hrun i (by omega) h2)
  | case2 x h hdig =>
    intro hle hrun
    rcases Nat.eq_or_lt_of_le hle with rfl | hlt
    · rw [skip_numbers]
      simp only [List.get_eq_getElem] at hdig
      simp [h, hdig]
    · exfalso
      obtain ⟨c, hc, hcs⟩ := hrun x le_rfl hlt
      have hx : d.get? x = some (d.get ⟨x, h⟩) := List.get?_eq_some.mpr ⟨h, rfl⟩
      rw [hx] at hc
      exact hdig ((Option.some.inj hc).symm ▸ hcs)
  | case3 x h =>
    intro hle hrun
    rcases Nat.eq_or_lt_of_le hle with rfl | hlt
    · rw [skip_numbers]; simp [h]
    · exfalso
      obtain ⟨c, hc, _⟩ := hrun x le_rfl hlt
      rw [List.get?_eq_none.mpr (by omega)] at hc
      exact Option.noConfusion hc

/-- Every position passed over by `skip_numbers` holds a digit. -/
theorem skip_numbers_mem (d : List Char) :
    ∀ pos i, pos ≤ i → i < skip_numbers d pos →
      ∃ c, d.get? i = some c ∧ c ∈ numbers := by
  intro pos
  induction pos using skip_numbers.induct d with
  | case1 x h hdig ih =>
    intro i hpi hi
    rcases Nat.eq_or_lt_of_le hpi with rfl | hlt
    · exact ⟨d.get ⟨x, h⟩, List.get?_eq_some.mpr ⟨h, rfl⟩, hdig⟩
    · rw [skip_numbers] at hi
      simp only [dif_pos h, hdig, if_true] at hi
      exact ih i hlt hi
  | case2 x h hdig =>
    intro i hpi hi
    rw [skip_numbers] at hi
    simp only [List.get_eq_getElem] at hdig
    simp [h, hdig] at hi
    omega
  | case3 x h =>
    intro i hpi hi
    rw [skip_numbers] at hi
    simp [h] at hi
    omega

/-- `skip_numbers` never runs past the end of the input when started inside. -/
theorem skip_numbers_le_length (d : List Char) :
    ∀ pos, pos ≤ d.length → skip_numbers d pos ≤ d.length := by
  intro pos
  induction pos using skip_numbers.induct d with
  | case1 x h hdig ih =>
    intro _
    rw [skip_numbers]
    simp only [dif_pos h, hdig, if_true]
    exact ih (by omega)
  | case2 x h hdig =>
    intro hx
    rw [skip_numbers, dif_pos h, if_neg hdig]
    omega
  | case3 x h =>
    intro hx
    rw [skip_numbers, dif_neg h]
    omega

/-- `parse_command` on a letter outside the supported set fails with
`UnsupportedCommand` naming the letter and the position. -/
theorem parse_command_unsupported (c : Char) (d : List Char) (pos : Nat)
    (hc : c ∉ commands) :
    parse_command c d pos = .error (.unsupportedCommand c pos) := by
  have h1 : c ∉ moveto_commands := fun hm =>
    hc (by simp only [commands, List.mem_append]; exact Or.inl (Or.inl hm))
  have h2 : c ∉ curveto_commands := fun hm =>
    hc (by simp only [commands, List.mem_append]; exact Or.inl (Or.inr hm))
  have h3 : c ∉ smooth_curveto_commands := fun hm =>
    hc (by simp only [commands, List.mem_append]; exact Or.inr hm)
  rw [parse_command, if_neg h1, if_neg h2, if_neg h3]

/-- Inversion for a successful `parse_command`: the record carries the
dispatched letter, and the argument count is fixed by the letter kind. -/
theorem parse_command_ok_spec {c : Char} {d : List Char} {pos0 p' : Nat}
    {pc : PathCommand} (h : parse_command c d pos0 = .ok (p', pc)) :
    pc.command = c ∧ c ∈ commands ∧
      ((c ∈ moveto_commands ∧ pc.args.length = 2) ∨
        (c ∈ curveto_commands ∧ pc.args.length = 6) ∨
        (c ∈ smooth_curveto_commands ∧ pc.args.length = 4)) := by
  simp only [parse_command] at h
  split at h
  next hm =>
    split at h
    · simp at h
    next heq =>
      simp only [Except.ok.injEq, Prod.mk.injEq] at h
      obtain ⟨_, hv⟩ := h
      subst hv
      exact ⟨rfl, by simp only [commands, List.mem_append]; exact Or.inl (Or.inl hm),
        Or.inl ⟨hm, rfl⟩⟩
  next hm1 =>
    split at h
    next hm =>
      split at h
      · simp at h
      next heq1 =>
        split at h
        · simp at h
        next heq2 =>
          split at h
          · simp at h
          next heq3 =>
            simp only [Except.ok.injEq, Prod.mk.injEq] at h
            obtain ⟨_, hv⟩ := h
            subst hv
            exact ⟨rfl, by simp only [commands, List.mem_append]; exact Or.inl (Or.inr hm),
              Or.inr (Or.inl ⟨hm, rfl⟩)⟩
    next hm2 =>
      split at h
      next hm =>
        split at h
        · simp at h
        next heq1 =>
          split at h
          · simp at h
          next heq2 =>
            simp only [Except.ok.injEq, Prod.mk.injEq] at h
            obtain ⟨_, hv⟩ := h
            subst hv
            exact ⟨rfl, by simp only [commands, List.mem_append]; exact Or.inr hm,
              Or.inr (Or.inr ⟨hm, rfl⟩)⟩
      next hm3 => simp at h

/-- `parse_number` never fails with the empty-input error. -/
theorem parse_number_not_empty (d : List Char) (pos : Nat) :
    parse_number d pos ≠ .error .emptyInput := by
  intro h
  simp only [parse_number] at h
  split at h
  case isFalse h1 => simp [raise_unexpected_end_of_data] at h
  case isTrue h1 =>
  split at h
  case isFalse hnum =>
    simp only [raise_unexpected_char] at h
    split at h <;> simp_all
  case isTrue hnum =>
  by_cases hminus : d.get ⟨skip_seps d pos, h1⟩ = minus_sign
  · rw [if_pos hminus] at h
    split at h
    next => simp at h
    next c hc =>
      split at h
      next hcnum =>
        split at h
        next h3 =>
          split at h
          next hdp =>
            split at h
            next => simp at h
            next c2 hc2 =>
              split at h
              next hc2num => simp at h
              next =>
                simp only [raise_unexpected_char, hc2] at h
                simp at h
          next hdp => simp at h
        next h3 => simp at h
      next =>
        simp only [raise_unexpected_char, hc] at h
        simp at h
  · rw [if_neg hminus] at h
    split at h
    next => simp at h
    next c hc =>
      split at h
      next hcnum =>
        split at h
        next h3 =>
          split at h
          next hdp =>
            split at h
            next => simp at h
            next c2 hc2 =>
              split at h
              next hc2num => simp at h
              next =>
                simp only [raise_unexpected_char, hc2] at h
                simp at h
          next hdp => simp at h
        next h3 => simp at h
      next =>
        simp only [raise_unexpected_char, hc] at h
        simp at h

theorem parse_number_error_ne_empty {d : List Char} {pos : Nat} {e : PErr}
    (h : parse_number d pos = .error e) : e ≠ .emptyInput := by
  intro he
  subst he
  exact parse_number_not_empty d pos h

/-- `parse_cooridate` never fails with the empty-input error. -/
theorem parse_cooridate_error_ne_empty {d : List Char} {pos : Nat} {e : PErr}
    (h : parse_cooridate d pos = .error e) : e ≠ .emptyInput := by
  intro he
  subst he
  simp only [parse_cooridate, raise_unexpected_end_of_data] at h
  split at h
  next e' heq =>
    simp only [Except.error.injEq] at h
    exact parse_number_error_ne_empty heq h
  next pos1 x1 heq1 =>
    split at h
    · split at h
      next e' heq2 =>
        simp only [Except.error.injEq] at h
        exact parse_number_error_ne_empty heq2 h
      next => simp at h
    · simp at h

/-- `parse_command` never fails with the empty-input error. -/
theorem parse_command_error_ne_empty {c : Char} {d : List Char} {pos : Nat}
    {e : PErr} (h : parse_command c d pos = .error e) : e ≠ .emptyInput := by
  intro he
  subst he
  simp only [parse_command] at h
  split at h
  · split at h
    next e' heq =>
      simp only [Except.error.injEq] at h
      exact parse_cooridate_error_ne_empty heq h
    next => simp at h
  · split at h
    · split at h
      next e' heq =>
        simp only [Except.error.injEq] at h
        exact parse_cooridate_error_ne_empty heq h
      next pos1 x1 y1 heq1 =>
        split at h
        next e' heq =>
          simp only [Except.error.injEq] at h
          exact parse_cooridate_error_ne_empty heq h
        next pos2 x2 y2 heq2 =>
          split at h
          next e' heq =>
            simp only [Except.error.injEq] at h
            exact parse_cooridate_error_ne_empty heq h
          next => simp at h
    · split at h
      · split at h
        next e' heq =>
          simp only [Except.error.injEq] at h
          exact parse_cooridate_error_ne_empty heq h
        next pos1 x1 y1 heq1 =>
          split at h
          next e' heq =>
            simp only [Except.error.injEq] at h
            exact parse_cooridate_error_ne_empty heq h
          next => simp at h
      · simp only [Except.error.injEq] at h
        simp at h

/-- The driver loop never fails with the empty-input error. -/
theorem parse_loop_ne_empty (d : List Char) :
    ∀ n pos last, d.length - pos ≤ n →
      parse_loop d pos last ≠ .error .emptyInput := by
  intro n
  induction n with
  | zero =>
    intro pos last hn
    rw [parse_loop, dif_neg (by omega : ¬pos < d.length)]
    simp
  | succ n ih =>
    intro pos last hn h
    rw [parse_loop] at h
    by_cases hp : pos < d.length
    · rw [dif_pos hp] at h
      simp only at h
      split at h
      · split at h
        next e heq =>
          simp only [Except.error.injEq] at h
          exact parse_command_error_ne_empty heq h
        next pos2 pc heq =>
          split at h
          next e heq2 =>
            simp only [Except.error.injEq] at h
            subst h
            have := parse_command_lt heq
            have := skip_seps_le d pos2
            exact ih (skip_seps d pos2) _ (by omega) heq2
          next => simp at h
      · split at h
        next lc =>
          split at h
          · split at h
            next e heq =>
              simp only [Except.error.injEq] at h
              exact parse_command_error_ne_empty heq h
            next pos2 pc heq =>
              split at h
              next e heq2 =>
                simp only [Except.error.injEq] at h
                subst h
                have := parse_command_lt heq
                have := skip_seps_le d pos2
                exact ih (skip_seps d pos2) _ (by omega) heq2
              next => simp at h
          · simp only [raise_unexpected_char] at h
            split at h <;> simp_all
        next =>
          simp only [raise_unexpected_char] at h
          split at h <;> simp_all
    · rw [dif_neg hp] at h
      simp at h

/-- Records appended by the driver loop always carry a recognized command
letter and the fixed argument count of that letter's kind. -/
theorem parse_loop_arity (d : List Char) :
    ∀ n pos last l, d.length - pos ≤ n →
      (∀ c, last = some c → c ∈ commands) →
      parse_loop d pos last = .ok l →
      ∀ pc ∈ l, pc.command ∈ commands ∧
        ((pc.command ∈ moveto_commands ∧ pc.args.length = 2) ∨
          (pc.command ∈ curveto_commands ∧ pc.args.length = 6) ∨
          (pc.command ∈ smooth_curveto_commands ∧ pc.args.length = 4)) := by
  intro n
  induction n with
  | zero =>
    intro pos last l hn hlast h
    rw [parse_loop, dif_neg (by omega : ¬pos < d.length)] at h
    simp only [Except.ok.injEq] at h
    subst h
    intro pc hpc
    exact absurd hpc (List.not_mem_nil pc)
  | succ n ih =>
    intro pos last l hn hlast h
    rw [parse_loop] at h
    by_cases hp : pos < d.length
    · rw [dif_pos hp] at h
      simp only at h
      split at h
      next hc =>
        split at h
        · simp at h
        next pos2 pc0 heq =>
          split at h
          · simp at h
          next rest heq2 =>
            simp only [Except.ok.injEq] at h
            subst h
            intro pc hpc
            rcases List.mem_cons.mp hpc with rfl | hmem
            · obtain ⟨hcmd, hcin, hdisj⟩ := parse_command_ok_spec heq
              exact ⟨hcmd ▸ hcin, hcmd ▸ hdisj⟩
            · have := parse_command_lt heq
              have := skip_seps_le d pos2
              exact ih (skip_seps d pos2) _ rest (by omega)
                (fun c' hc' => (Option.some.inj hc') ▸ hc) heq2 pc hmem
      next hc =>
        split at h
        next lc =>
          split at h
          next hnum =>
            split at h
            · simp at h
            next pos2 pc0 heq =>
              split at h
              · simp at h
              next rest heq2 =>
                simp only [Except.ok.injEq] at h
                subst h
                intro pc hpc
                rcases List.mem_cons.mp hpc with rfl | hmem
                · obtain ⟨hcmd, hcin, hdisj⟩ := parse_command_ok_spec heq
                  exact ⟨hcmd ▸ hcin, hcmd ▸ hdisj⟩
                · have := parse_command_lt heq
                  have := skip_seps_le d pos2
                  exact ih (skip_seps d pos2) _ rest (by omega) hlast heq2 pc hmem
          next =>
            simp only [raise_unexpected_char] at h
            split at h <;> simp_all
        next =>
          simp only [raise_unexpected_char] at h
          split at h <;> simp_all
    · rw [dif_neg hp] at h
      simp only [Except.ok.injEq] at h
      subst h
      intro pc hpc
      exact absurd hpc (List.not_mem_nil pc)

/-- One driver iteration on a numeric-literal-starting character with an
active last command: the loop re-dispatches the last command with the number
scan starting at that character's own position (`pos + 1 - 1 = pos`). -/
theorem parse_loop_elision_step (d : List Char) (pos : Nat) (lc : Char)
    (h : pos < d.length) (hc : d.get ⟨pos, h⟩ ∉ commands)
    (hn : d.get ⟨pos, h⟩ ∈ numberic_chars) :
    parse_loop d pos (some lc) =
      match parse_command lc d pos with
      | .error e => .error e
      | .ok (pos2, path_command) =>
        match parse_loop d (skip_seps d pos2) (some lc) with
        | .error e => .error e
        | .ok rest => .ok (path_command :: rest) := by
  conv_lhs => rw [parse_loop]
  simp only [dif_pos h, if_neg hc, if_pos hn]
  have hidx : pos + 1 - 1 = pos := rfl
  split
  next e heq =>
    rw [hidx] at heq
    rw [heq]
  next pos2 path_command heq =>
    rw [hidx] at heq
    rw [heq]

/-- One driver iteration on a character that is neither a command letter nor
(numeric with an active last command): the loop calls
`raise_unexpected_char(d, pos)` with the already-incremented cursor. -/
theorem parse_loop_unknown_step (d : List Char) (pos : Nat)
    (last : Option Char) (h : pos < d.length)
    (hc : d.get ⟨pos, h⟩ ∉ commands)
    (hrest : d.get ⟨pos, h⟩ ∉ numberic_chars ∨ last = none) :
    parse_loop d pos last =
      raise_unexpected_char (List PathCommand) d (pos + 1) := by
  rw [parse_loop]
  simp only [dif_pos h, if_neg hc]
  cases last with
  | none => rfl
  | some lc =>
    rcases hrest with hn | hnone
    · simp only [if_neg hn]
    · exact Option.noConfusion hnone

/-- `skip_seps` is the identity at or past the end of the input. -/
theorem skip_seps_of_ge (d : List Char) (pos : Nat) (h : ¬pos < d.length) :
    skip_seps d pos = pos := by
  rw [skip_seps, dif_neg h]

/-- On a non-empty input made only of separators the whole parse succeeds with
zero records. -/
theorem parse_d_property_all_seps (d : List Char) (hne : d ≠ [])
    (hall : ∀ c ∈ d, c ∈ sep_chars) : parse_d_property d = .ok [] := by
  have hlen : ¬d.length = 0 := fun h0 => hne (List.length_eq_zero.mp h0)
  have h0 : skip_seps d 0 = d.length :=
    skip_seps_eq_stop d d.length (Or.inl (List.get?_eq_none.mpr le_rfl)) 0
      (Nat.zero_le _)
      (fun i _ hi => ⟨d.get ⟨i, hi⟩, List.get?_eq_some.mpr ⟨hi, rfl⟩,
        hall _ (List.get_mem d i hi)⟩)
  rw [parse_d_property, if_neg hlen]
  show parse_loop d (skip_seps d (skip_seps d 0)) none = .ok []
  rw [h0, skip_seps_of_ge d d.length (by omega), parse_loop,
    dif_neg (by omega : ¬d.length < d.length)]

/-- Membership in a Python slice `d[a:b]` (with `b` in range) is membership at
an absolute index in `[a, b)`. -/
theorem mem_pySlice {d : List Char} {a b : Nat} {c : Char}
    (hb : b ≤ d.length) :
    c ∈ pySlice d a b ↔ ∃ i, a ≤ i ∧ i < b ∧ d.get? i = some c := by
  simp only [pySlice]
  rw [List.mem_iff_get?]
  constructor
  · rintro ⟨j, hj⟩
    rw [List.get?_eq_getElem?, List.getElem?_take] at hj
    by_cases hjb : j < b - a
    · rw [if_pos hjb, ← List.get?_eq_getElem?, List.get?_drop] at hj
      exact ⟨a + j, by omega, by omega, hj⟩
    · rw [if_neg hjb] at hj
      exact Option.noConfusion hj
  · rintro ⟨i, hai, hib, hget⟩
    refine ⟨i - a, ?_⟩
    rw [List.get?_eq_getElem?, List.getElem?_take, if_pos (by omega),
      ← List.get?_eq_getElem?, List.get?_drop]
    have : a + (i - a) = i := by omega
    rw [this]
    exact hget

/-- Decoding facts for a successful `parse_number`: the cursor advances, the
value is decoded by `pyInt`/`pyFloat` from the consumed substring
`d[start:pos']` (with `start = skip_seps d pos0`), and the value is an integer
exactly when the consumed substring contains no decimal point. -/
theorem parse_number_decode {d : List Char} {pos0 p' : Nat} {v : Value}
    (h : parse_number d pos0 = .ok (p', v)) :
    pos0 < p' ∧
      ((∃ n : ℤ, v = .int n ∧ n = pyInt (pySlice d (skip_seps d pos0) p') ∧
          decimal_point ∉ pySlice d (skip_seps d pos0) p') ∨
        (∃ q : ℚ, v = .float q ∧ q = pyFloat (pySlice d (skip_seps d pos0) p') ∧
          decimal_point ∈ pySlice d (skip_seps d pos0) p')) := by
  refine ⟨parse_number_lt h, ?_⟩
  obtain ⟨s, q, hs, ⟨c0, hc0, hc0n, hq⟩, ⟨c1, hc1, hc1n⟩, hbr⟩ :=
    parse_number_ok_inv h
  subst hs
  have hqlen : q < d.length := (List.get?_eq_some.mp hc1).1
  rcases hbr with ⟨hp', hv, _⟩ | ⟨r, c2, hr, hrdp, hg2, hc2n, hp', hv⟩
  · left
    refine ⟨pyInt (pySlice d (skip_seps d pos0) p'), hv, rfl, ?_⟩
    intro hmem
    have hble : p' ≤ d.length := by
      rw [hp']
      exact skip_numbers_le_length d q (by omega)
    obtain ⟨i, hsi, hip, hgi⟩ := (mem_pySlice hble).mp hmem
    rcases hq with ⟨hc0m, hq1⟩ | ⟨hc0m, hq1⟩
    · rcases Nat.eq_or_lt_of_le hsi with rfl | hlt
      · rw [hgi] at hc0
        have : decimal_point = c0 := Option.some.inj hc0
        rw [hc0m] at this
        exact absurd this (by decide)
      · have hqi : q ≤ i := by omega
        obtain ⟨cd, hcd, hcdn⟩ :=
          skip_numbers_mem d q i hqi (by rw [← hp']; exact hip)
        rw [hgi] at hcd
        have : decimal_point = cd := Option.some.inj hcd
        subst this
        exact absurd hcdn (by decide)
    · have hqi : q ≤ i := by omega
      obtain ⟨cd, hcd, hcdn⟩ :=
        skip_numbers_mem d q i hqi (by rw [← hp']; exact hip)
      rw [hgi] at hcd
      have : decimal_point = cd := Option.some.inj hcd
      subst this
      exact absurd hcdn (by decide)
  · right
    refine ⟨pyFloat (pySlice d (skip_seps d pos0) p'), hv, rfl, ?_⟩
    have hrlen : r < d.length := (List.get?_eq_some.mp hrdp).1
    have hble : p' ≤ d.length := by
      rw [hp']
      exact skip_numbers_le_length d (r + 1) (by omega)
    apply (mem_pySlice hble).mpr
    refine ⟨r, ?_, ?_, hrdp⟩
    · have h1 : q ≤ skip_numbers d q := skip_numbers_le d q
      have h2 : skip_seps d pos0 ≤ q := by
        rcases hq with ⟨_, hq1⟩ | ⟨_, hq1⟩ <;> omega
      omega
    · have h3 : r + 1 ≤ skip_numbers d (r + 1) := skip_numbers_le d (r + 1)
      omega

/-! Disjointness of the command-letter kinds. -/

theorem moveto_not_curveto : ∀ c ∈ moveto_commands, c ∉ curveto_commands := by
  decide

theorem moveto_not_smooth : ∀ c ∈ moveto_commands,
    c ∉ smooth_curveto_commands := by decide

theorem curveto_not_moveto : ∀ c ∈ curveto_commands, c ∉ moveto_commands := by
  decide

theorem curveto_not_smooth : ∀ c ∈ curveto_commands,
    c ∉ smooth_curveto_commands := by decide

theorem smooth_not_moveto : ∀ c ∈ smooth_curveto_commands,
    c ∉ moveto_commands := by decide

theorem smooth_not_curveto : ∀ c ∈ smooth_curveto_commands,
    c ∉ curveto_commands := by decide

/-- Recognizer for the `UnsupportedCommand` error shape. -/
def isUnsupportedCommandErr (r : Except PErr (List PathCommand)) : Bool :=
  match r with
  | .error (.unsupportedCommand _ _) => true
  | _ => false

/-! The claims. -/

/-- C1: for every input on which `parse_d_property` succeeds, every record in
the result carries a recognized command letter, and its argument count is
determined solely by that letter: 2 for `M`/`m`, 6 for `C`/`c`, 4 for `S`/`s`;
no successful parse yields a partially-filled record. -/
theorem C1_arity_invariant (d : List Char) (l : List PathCommand)
    (h : parse_d_property d = .ok l) :
    ∀ pc ∈ l, pc.command ∈ commands ∧
      (pc.command ∈ moveto_commands → pc.args.length = 2) ∧
      (pc.command ∈ curveto_commands → pc.args.length = 6) ∧
      (pc.command ∈ smooth_curveto_commands → pc.args.length = 4) := by
  rw [parse_d_property] at h
  split at h
  · exact absurd h (by simp)
  · intro pc hpc
    obtain ⟨hcin, hdisj⟩ := parse_loop_arity d d.length
      (skip_seps d (skip_seps d 0)) none l
      (by omega) (fun c hc => Option.noConfusion hc) h pc hpc
    refine ⟨hcin, ?_, ?_, ?_⟩
    · intro hm
      rcases hdisj with ⟨_, h2⟩ | ⟨h1, _⟩ | ⟨h1, _⟩
      · exact h2
      · exact absurd hm (curveto_not_moveto _ h1)
      · exact absurd hm (smooth_not_moveto _ h1)
    · intro hm
      rcases hdisj with ⟨h1, _⟩ | ⟨_, h2⟩ | ⟨h1, _⟩
      · exact absurd hm (moveto_not_curveto _ h1)
      · exact h2
      · exact absurd hm (smooth_not_curveto _ h1)
    · intro hm
      rcases hdisj with ⟨h1, _⟩ | ⟨h1, _⟩ | ⟨_, h2⟩
      · exact absurd hm (moveto_not_smooth _ h1)
      · exact absurd hm (curveto_not_smooth _ h1)
      · exact h2

/-- Witness for C1 at the concrete parse of `"M 1 2"`. -/
theorem C1_arity_invariant_witness :
    (PathCommand.mk 'M' [.int 1, .int 2]).command ∈ commands ∧
      ((PathCommand.mk 'M' [.int 1, .int 2]).command ∈ moveto_commands →
        (PathCommand.mk 'M' [.int 1, .int 2]).args.length = 2) ∧
      ((PathCommand.mk 'M' [.int 1, .int 2]).command ∈ curveto_commands →
        (PathCommand.mk 'M' [.int 1, .int 2]).args.length = 6) ∧
      ((PathCommand.mk 'M' [.int 1, .int 2]).command ∈ smooth_curveto_commands →
        (PathCommand.mk 'M' [.int 1, .int 2]).args.length = 4) :=
  C1_arity_invariant ['M', ' ', '1', ' ', '2'] [⟨'M', [.int 1, .int 2]⟩]
    (by rw [← parse_d_property_run_eq]; decide)
    ⟨'M', [.int 1, .int 2]⟩ (by simp)

/-- C2: whenever `parse_number` succeeds it returns a strictly advanced cursor
and the value decoded from the consumed substring; the value is an integer
exactly when the consumed substring contains no decimal point and fractional
exactly when it does (never coerced); consequently `parse_d_property "M1.5 2.25"`
yields one moveto record with the fractional arguments 3/2 and 9/4. -/
theorem C2_number_decoding :
    (∀ (d : List Char) (pos0 p' : Nat) (v : Value),
      parse_number d pos0 = .ok (p', v) →
      pos0 < p' ∧
        ((∃ n : ℤ, v = .int n ∧ n = pyInt (pySlice d (skip_seps d pos0) p') ∧
            decimal_point ∉ pySlice d (skip_seps d pos0) p') ∨
          (∃ q : ℚ, v = .float q ∧
            q = pyFloat (pySlice d (skip_seps d pos0) p') ∧
            decimal_point ∈ pySlice d (skip_seps d pos0) p'))) ∧
    parse_d_property ['M', '1', '.', '5', ' ', '2', '.', '2', '5'] =
      .ok [⟨'M', [.float (3/2), .float (9/4)]⟩] := by
  constructor
  · exact fun d pos0 p' v h => parse_number_decode h
  · have h1 : parse_d_property ['M', '1', '.', '5', ' ', '2', '.', '2', '5'] =
        .ok [⟨'M', [.float (pyFloat ['1', '.', '5']),
          .float (pyFloat ['2', '.', '2', '5'])]⟩] := by
      rw [← parse_d_property_run_eq]; rfl
    have h2 : pyFloat ['1', '.', '5'] = pyFracVal ['1', '.', '5'] := rfl
    have h3 : pyFloat ['2', '.', '2', '5'] = pyFracVal ['2', '.', '2', '5'] := rfl
    rw [h1, h2, h3]
    simp [pyFracVal, decimal_point, digitsToNat, digitVal,
      List.takeWhile_cons, List.dropWhile_cons]
    norm_num

/-- Witness for C2 at the concrete call `parse_number "7" 0`. -/
theorem C2_number_decoding_witness :
    0 < 1 ∧
      ((∃ n : ℤ, Value.int 7 = .int n ∧
          n = pyInt (pySlice ['7'] (skip_seps ['7'] 0) 1) ∧
          decimal_point ∉ pySlice ['7'] (skip_seps ['7'] 0) 1) ∨
        (∃ q : ℚ, Value.int 7 = .float q ∧
          q = pyFloat (pySlice ['7'] (skip_seps ['7'] 0) 1) ∧
          decimal_point ∈ pySlice ['7'] (skip_seps ['7'] 0) 1)) :=
  C2_number_decoding.1 ['7'] 0 1 (.int 7)
    (by rw [← parse_number_run_eq]; decide)

/-- C3: when the driver reads a digit, minus sign, or decimal point while a
last command is set, it re-dispatches the last command with the number scan
starting at that very character; `"M0 0 1 1"` parses to two moveto records
`(0,0)` and `(1,1)`, and `"M0 0-1-1"` to `(0,0)` and `(-1,-1)`. -/
theorem C3_command_elision :
    (∀ (d : List Char) (pos : Nat) (lc : Char) (h : pos < d.length),
      d.get ⟨pos, h⟩ ∉ commands → d.get ⟨pos, h⟩ ∈ numberic_chars →
      parse_loop d pos (some lc) =
        match parse_command lc d pos with
        | .error e => .error e
        | .ok (pos2, path_command) =>
          match parse_loop d (skip_seps d pos2) (some lc) with
          | .error e => .error e
          | .ok rest => .ok (path_command :: rest)) ∧
    parse_d_property ['M', '0', ' ', '0', ' ', '1', ' ', '1'] =
      .ok [⟨'M', [.int 0, .int 0]⟩, ⟨'M', [.int 1, .int 1]⟩] ∧
    parse_d_property ['M', '0', ' ', '0', '-', '1', '-', '1'] =
      .ok [⟨'M', [.int 0, .int 0]⟩, ⟨'M', [.int (-1), .int (-1)]⟩] := by
  refine ⟨fun d pos lc h hc hn => parse_loop_elision_step d pos lc h hc hn,
    ?_, ?_⟩
  · rw [← parse_d_property_run_eq]; decide
  · rw [← parse_d_property_run_eq]; decide

/-- Witness for C3's general step at `d = "0"`, `pos = 0`, last command `M`. -/
theorem C3_command_elision_witness :
    parse_loop ['0'] 0 (some 'M') =
      match parse_command 'M' ['0'] 0 with
      | .error e => .error e
      | .ok (pos2, path_command) =>
        match parse_loop ['0'] (skip_seps ['0'] pos2) (some 'M') with
        | .error e => .error e
        | .ok rest => .ok (path_command :: rest) :=
  C3_command_elision.1 ['0'] 0 'M' (by decide) (by decide) (by decide)

/-- C4 counterexample: on input `"Z"` the parse does not fail with
`UnsupportedCommand` at all — it raises a Python `IndexError` (out-of-range
`d[1]` inside the error reporter). -/
theorem C4_counterexample :
    parse_d_property ['Z'] = .error (.indexError 1) ∧
    isUnsupportedCommandErr (parse_d_property ['Z']) = false := by
  rw [← parse_d_property_run_eq]
  constructor <;> decide

/-- C4 (amended): `parse_command` itself rejects a letter outside the
supported set with `UnsupportedCommand` naming the letter and position, but
the driver never reaches that branch: a top-level unsupported letter falls
into the driver's else-branch, which reports `UnexpectedCharacter` for the
*following* position (`pos + 1`) — an out-of-range `IndexError` when the
letter is the last character.  Concretely, `"Z"` gives an `IndexError` and
`"L 0"` gives `UnexpectedCharacter ' '` at offset 1. -/
theorem C4_amended :
    (∀ (c : Char) (d : List Char) (pos : Nat), c ∉ commands →
      parse_command c d pos = .error (.unsupportedCommand c pos)) ∧
    (∀ (d : List Char) (pos : Nat) (last : Option Char) (h : pos < d.length),
      d.get ⟨pos, h⟩ ∉ commands → d.get ⟨pos, h⟩ ∉ numberic_chars →
      parse_loop d pos last =
        raise_unexpected_char (List PathCommand) d (pos + 1)) ∧
    parse_d_property ['Z'] = .error (.indexError 1) ∧
    parse_d_property ['L', ' ', '0'] = .error (.unexpectedChar ' ' 1) := by
  refine ⟨fun c d pos hc => parse_command_unsupported c d pos hc,
    fun d pos last h hc hn =>
      parse_loop_unknown_step d pos last h hc (Or.inl hn), ?_, ?_⟩
  · rw [← parse_d_property_run_eq]; decide
  · rw [← parse_d_property_run_eq]; decide

/-- Witness for C4's amended general parts at concrete inputs. -/
theorem C4_amended_witness :
    parse_command 'Z' [] 0 = .error (.unsupportedCommand 'Z' 0) ∧
    parse_loop ['?'] 0 none =
      raise_unexpected_char (List PathCommand) ['?'] 1 :=
  ⟨C4_amended.1 'Z' [] 0 (by decide),
    C4_amended.2.1 ['?'] 0 none (by decide) (by decide) (by decide)⟩

/-- C5: the driver's `raise_unexpected_char(d, pos)` is called with the
already-incremented cursor, so the diagnostic names the character *after* the
offending one (here `'0'` at offset 1 instead of `'?'` at offset 0), and when
the offending character is last it crashes with an out-of-range `IndexError`
instead of a diagnostic. -/
theorem C5_error_off_by_one :
    parse_d_property ['?', '0'] = .error (.unexpectedChar '0' 1) ∧
    parse_d_property ['?'] = .error (.indexError 1) := by
  refine ⟨?_, ?_⟩ <;> (rw [← parse_d_property_run_eq]; decide)

/-- C6: a consumed minus sign or decimal point not followed by a digit gives
`UnexpectedCharacter` at the offending position when a character is there, but
when the input ends right after the sign or the point the unguarded `d[pos]`
raises a Python `IndexError` instead. -/
theorem C6_lone_sign_or_point :
    parse_number ['-'] 0 = .error (.indexError 1) ∧
    parse_number ['1', '.'] 0 = .error (.indexError 2) ∧
    parse_number ['-', 'x'] 0 = .error (.unexpectedChar 'x' 1) ∧
    parse_number ['1', '.', 'x'] 0 = .error (.unexpectedChar 'x' 2) := by
  refine ⟨?_, ?_, ?_, ?_⟩ <;> (rw [← parse_number_run_eq]; decide)

/-- C7: `parse_d_property` fails with `EmptyInput` exactly on the empty
string, and `"M1"` (truncated mid-coordinate) fails with
`UnexpectedEndOfInput` (at offset 2). -/
theorem C7_empty_and_truncated :
    (∀ d : List Char, parse_d_property d = .error .emptyInput ↔ d = []) ∧
    parse_d_property ['M', '1'] = .error (.unexpectedEndOfData 2) := by
  constructor
  · intro d
    constructor
    · intro h
      by_contra hne
      rw [parse_d_property,
        if_neg (fun h0 => hne (List.length_eq_zero.mp h0))] at h
      exact parse_loop_ne_empty d d.length _ none (by omega) h
    · rintro rfl
      rw [parse_d_property]
      simp
  · rw [← parse_d_property_run_eq]; decide

/-- Witness for C7's equivalence at the empty input. -/
theorem C7_empty_and_truncated_witness :
    parse_d_property [] = .error .emptyInput :=
  (C7_empty_and_truncated.1 []).mpr rfl

/-- C8: `"M 100 100"`, `"M100,100"` and `"M100 100"` all parse to the same
single moveto record with arguments `(100, 100)`. -/
theorem C8_separator_tolerance :
    parse_d_property ['M', ' ', '1', '0', '0', ' ', '1', '0', '0'] =
      .ok [⟨'M', [.int 100, .int 100]⟩] ∧
    parse_d_property ['M', '1', '0', '0', ',', '1', '0', '0'] =
      .ok [⟨'M', [.int 100, .int 100]⟩] ∧
    parse_d_property ['M', '1', '0', '0', ' ', '1', '0', '0'] =
      .ok [⟨'M', [.int 100, .int 100]⟩] := by
  refine ⟨?_, ?_, ?_⟩ <;> (rw [← parse_d_property_run_eq]; decide)

/-- C10: any non-empty input consisting only of separator characters parses
successfully to the empty record sequence. -/
theorem C10_separators_only (d : List Char) (hne : d ≠ [])
    (hall : ∀ c ∈ d, c ∈ sep_chars) : parse_d_property d = .ok [] :=
  parse_d_property_all_seps d hne hall

/-- Witness for C10 at the input `" ,\n"`. -/
theorem C10_separators_only_witness :
    parse_d_property [' ', ',', '\n'] = .ok [] :=
  C10_separators_only [' ', ',', '\n'] (by decide) (by decide)

/-! Number formatting, for the round-trip property.

The repository contains no formatter; the spec only says "parsing the decoded
numeric value back to text and re-parsing yields an equal value".  The
definitions below are therefore modelled from the spec: the standard decimal
rendering of the decoded values (sign, digits, and for fractional values a
decimal point with the exact fraction digits). -/

/-- Character facts used by the formatter proofs. -/
theorem digits_not_sep : ∀ c ∈ numbers, c ∉ sep_chars := by decide

theorem digits_ne_minus : ∀ c ∈ numbers, c ≠ minus_sign := by decide

theorem digits_ne_point : ∀ c ∈ numbers, c ≠ decimal_point := by decide

theorem digits_sub_numberic : ∀ c ∈ numbers, c ∈ numberic_chars := by decide

theorem point_not_digit : decimal_point ∉ numbers := by decide

theorem minus_mem_numberic : minus_sign ∈ numberic_chars := by decide

theorem minus_not_sep : minus_sign ∉ sep_chars := by decide

theorem digitVal_digitChar : ∀ m, m < 10 → digitVal (Nat.digitChar m) = m := by
  decide

theorem digitChar_mem_numbers : ∀ m, m < 10 → Nat.digitChar m ∈ numbers := by
  decide

/-- Fuel-indexed decimal rendering of a natural number (most significant digit
first, no leading zeros, `"0"` for zero). -/
def natToDigitsCore : Nat → Nat → List Char
  | 0, _ => []
  | fuel + 1, n =>
    if n < 10 then [Nat.digitChar n]
    else natToDigitsCore fuel (n / 10) ++ [Nat.digitChar (n % 10)]

/-- Decimal rendering of a natural number. -/
def natToDigits (n : Nat) : List Char := natToDigitsCore (n + 1) n

theorem digitsToNat_append_singleton (A : List Char) (c : Char) :
    digitsToNat (A ++ [c]) = digitsToNat A * 10 + digitVal c := by
  simp [digitsToNat, List.foldl_append]

theorem natToDigitsCore_spec :
    ∀ fuel n, n < 10 ^ (fuel + 1) →
      digitsToNat (natToDigitsCore (fuel + 1) n) = n ∧
      natToDigitsCore (fuel + 1) n ≠ [] ∧
      (∀ c ∈ natToDigitsCore (fuel + 1) n, c ∈ numbers) := by
  intro fuel
  induction fuel with
  | zero =>
    intro n hn
    have h10 : n < 10 := by simpa using hn
    simp only [natToDigitsCore, if_pos h10]
    refine ⟨?_, by simp, ?_⟩
    · simp [digitsToNat, digitVal_digitChar n h10]
    · intro c hc
      simp only [List.mem_singleton] at hc
      exact hc ▸ digitChar_mem_numbers n h10
  | succ fuel ih =>
    intro n hn
    by_cases h10 : n < 10
    · simp only [natToDigitsCore, if_pos h10]
      refine ⟨by simp [digitsToNat, digitVal_digitChar n h10], by simp, ?_⟩
      intro c hc
      simp only [List.mem_singleton] at hc
      exact hc ▸ digitChar_mem_numbers n h10
    · have hdiv : n / 10 < 10 ^ (fuel + 1) := by
        rw [Nat.div_lt_iff_lt_mul (by omega : 0 < 10)]
        calc n < 10 ^ (fuel + 1 + 1) := hn
          _ = 10 ^ (fuel + 1) * 10 := by ring
      obtain ⟨ihv, ihne, ihd⟩ := ih (n / 10) hdiv
      have hshape : natToDigitsCore (fuel + 1 + 1) n =
          natToDigitsCore (fuel + 1) (n / 10) ++ [Nat.digitChar (n % 10)] := by
        simp only [natToDigitsCore, if_neg h10]
      rw [hshape]
      refine ⟨?_, by simp, ?_⟩
      · rw [digitsToNat_append_singleton, ihv,
          digitVal_digitChar (n % 10) (Nat.mod_lt n (by omega))]
        omega
      · intro c hc
        rcases List.mem_append.mp hc with hcl | hcr
        · exact ihd c hcl
        · simp only [List.mem_singleton] at hcr
          exact hcr ▸ digitChar_mem_numbers (n % 10) (Nat.mod_lt n (by omega))

theorem natToDigitsCore_length :
    ∀ fuel n k, n < 10 ^ (fuel + 1) → 1 ≤ k → n < 10 ^ k →
      (natToDigitsCore (fuel + 1) n).length ≤ k := by
  intro fuel
  induction fuel with
  | zero =>
    intro n k hn hk _
    have h10 : n < 10 := by simpa using hn
    simp [natToDigitsCore, if_pos h10]
    omega
  | succ fuel ih =>
    intro n k hn hk hnk
    by_cases h10 : n < 10
    · simp [natToDigitsCore, if_pos h10]
      omega
    · have hk2 : 2 ≤ k := by
        by_contra hlt
        have : k = 1 := by omega
        subst this
        simp at hnk
        omega
      have hdiv : n / 10 < 10 ^ (fuel + 1) := by
        rw [Nat.div_lt_iff_lt_mul (by omega : 0 < 10)]
        calc n < 10 ^ (fuel + 1 + 1) := hn
          _ = 10 ^ (fuel + 1) * 10 := by ring
      have hdivk : n / 10 < 10 ^ (k - 1) := by
        rw [Nat.div_lt_iff_lt_mul (by omega : 0 < 10)]
        calc n < 10 ^ k := hnk
          _ = 10 ^ (k - 1) * 10 := by
            rw [← pow_succ]
            congr 1
            omega
      have hlen := ih (n / 10) (k - 1) hdiv (by omega) hdivk
      have hshape : natToDigitsCore (fuel + 1 + 1) n =
          natToDigitsCore (fuel + 1) (n / 10) ++ [Nat.digitChar (n % 10)] := by
        simp only [natToDigitsCore, if_neg h10]
      rw [hshape, List.length_append, List.length_singleton]
      omega

theorem nat_lt_ten_pow_succ (n : Nat) : n < 10 ^ (n + 1) :=
  calc n < 2 ^ n := Nat.lt_two_pow n
    _ ≤ 10 ^ n := Nat.pow_le_pow_left (by omega) n
    _ < 10 ^ (n + 1) := by
      rw [pow_succ]
      have h := pow_pos (show 0 < 10 by omega) n
      omega

theorem digitsToNat_natToDigits (n : Nat) :
    digitsToNat (natToDigits n) = n :=
  (natToDigitsCore_spec n n (nat_lt_ten_pow_succ n)).1

theorem natToDigits_ne_nil (n : Nat) : natToDigits n ≠ [] :=
  (natToDigitsCore_spec n n (nat_lt_ten_pow_succ n)).2.1

theorem natToDigits_mem (n : Nat) : ∀ c ∈ natToDigits n, c ∈ numbers :=
  (natToDigitsCore_spec n n (nat_lt_ten_pow_succ n)).2.2

theorem natToDigits_length_le (n k : Nat) (hk : 1 ≤ k) (hn : n < 10 ^ k) :
    (natToDigits n).length ≤ k :=
  natToDigitsCore_length n n k (nat_lt_ten_pow_succ n) hk hn

/-- Fraction digits padded with leading zeros to width `k`. -/
def padDigits (k n : Nat) : List Char :=
  List.replicate (k - (natToDigits n).length) '0' ++ natToDigits n

theorem digitsToNat_replicate_zero_append (j : Nat) (l : List Char) :
    digitsToNat (List.replicate j '0' ++ l) = digitsToNat l := by
  induction j with
  | zero => simp
  | succ j ih =>
    rw [List.replicate_succ, List.cons_append]
    show digitsToNat (List.replicate j '0' ++ l) = digitsToNat l
    exact ih

theorem digitsToNat_padDigits (k n : Nat) :
    digitsToNat (padDigits k n) = n := by
  rw [padDigits, digitsToNat_replicate_zero_append, digitsToNat_natToDigits]

theorem padDigits_length (k n : Nat) (hk : 1 ≤ k) (hn : n < 10 ^ k) :
    (padDigits k n).length = k := by
  have h := natToDigits_length_le n k hk hn
  simp [padDigits, List.length_replicate]
  omega

theorem padDigits_mem (k n : Nat) : ∀ c ∈ padDigits k n, c ∈ numbers := by
  intro c hc
  rcases List.mem_append.mp hc with hl | hr
  · rw [List.eq_of_mem_replicate hl]
    decide
  · exact natToDigits_mem n c hr

/-- Modelled from the spec: the standard decimal rendering of a decoded
integer value ("integers stay integers"), missing from the repository, which
contains no formatter. -/
def formatInt (n : Int) : List Char :=
  if n < 0 then '-' :: natToDigits n.natAbs else natToDigits n.natAbs

/-- Modelled from the spec: "parsing the decoded numeric value back to text".
The repository contains no formatter, so the standard rendering is modelled:
integers as optional sign plus digits, fractional values as optional sign,
integer-part digits, a decimal point, and the exact fraction digits (the value
`q` of a fractional literal always has the form `m / 10^k`; it is rendered
with `k = q.den` fraction digits, which the lemmas below prove sufficient). -/
def formatValue : Value → List Char
  | .int n => formatInt n
  | .float q =>
    let k := q.den
    let m := (q * (10 : ℚ) ^ k).num
    (if m < 0 then ['-'] else []) ++
      natToDigits (m.natAbs / 10 ^ k) ++
      decimal_point :: padDigits k (m.natAbs % 10 ^ k)

theorem pySlice_full (d : List Char) : pySlice d 0 d.length = d := by
  simp [pySlice]

/-- `takeWhile`/`dropWhile` on a run satisfying the predicate followed by a
failing element. -/
theorem takeWhile_dropWhile_append (p : Char → Bool) (A B : List Char)
    (x : Char) (hA : ∀ a ∈ A, p a = true) (hx : p x = false) :
    (A ++ x :: B).takeWhile p = A ∧ (A ++ x :: B).dropWhile p = x :: B := by
  induction A with
  | nil => simp [List.takeWhile_cons, List.dropWhile_cons, hx]
  | cons a A' ih =>
    have ha : p a = true := hA a (by simp)
    obtain ⟨ih1, ih2⟩ := ih (fun b hb => hA b (by simp [hb]))
    constructor
    · rw [List.cons_append, List.takeWhile_cons, ha]
      simp [ih1]
    · rw [List.cons_append, List.dropWhile_cons, ha]
      simpa using ih2

/-- `pyInt` on a pure digit run. -/
theorem pyInt_digits {cs : List Char} (h : ∀ c ∈ cs, c ∈ numbers) :
    pyInt cs = (digitsToNat cs : ℤ) := by
  cases cs with
  | nil => rfl
  | cons c rest =>
    have hcm : c ≠ minus_sign := digits_ne_minus c (h c (by simp))
    rw [pyInt, if_neg (by simpa using hcm)]

theorem pyInt_neg (cs : List Char) :
    pyInt ('-' :: cs) = -(digitsToNat cs : ℤ) := by
  have h : ('-' :: cs).head? = some minus_sign := rfl
  rw [pyInt, if_pos h]
  rfl

/-- `pyFloat` on a literal that does not start with a minus sign. -/
theorem pyFloat_of_head_digit {a0 : Char} {cs : List Char}
    (h : a0 ∈ numbers) : pyFloat (a0 :: cs) = pyFracVal (a0 :: cs) := by
  have hcm : a0 ≠ minus_sign := digits_ne_minus a0 h
  rw [pyFloat, if_neg (by simpa using hcm)]

theorem pyFloat_neg (cs : List Char) :
    pyFloat ('-' :: cs) = -(pyFracVal cs) := by
  have h : ('-' :: cs).head? = some minus_sign := rfl
  rw [pyFloat, if_pos h]
  rfl

/-- `pyFracVal` on a canonical decimal `⟨digits⟩.⟨digits⟩`. -/
theorem pyFracVal_append (A B : List Char) (hA : ∀ c ∈ A, c ∈ numbers) :
    pyFracVal (A ++ decimal_point :: B) =
      (digitsToNat A : ℚ) + (digitsToNat B : ℚ) / (10 : ℚ) ^ B.length := by
  have hsplit := takeWhile_dropWhile_append
    (fun c => decide (c ≠ decimal_point)) A B decimal_point
    (fun a ha => by
      simp only [decide_eq_true_eq]
      exact digits_ne_point a (hA a ha))
    (by simp)
  rw [pyFracVal]
  simp only [hsplit.1, hsplit.2, List.drop_succ_cons, List.drop_zero]

/-- On a non-empty pure digit run the scanner consumes everything and decodes
the run as an integer. -/
theorem parse_number_digits_int (A : List Char) (hne : A ≠ [])
    (hAd : ∀ c ∈ A, c ∈ numbers) :
    parse_number A 0 = .ok (A.length, .int (digitsToNat A)) := by
  obtain ⟨a0, A', rfl⟩ := List.exists_cons_of_ne_nil hne
  have ha0 : a0 ∈ numbers := hAd a0 (by simp)
  have hg0 : (a0 :: A').get? 0 = some a0 := rfl
  have hlen0 : (0 : ℕ) < (a0 :: A').length := by simp
  have hskip0 : skip_seps (a0 :: A') 0 = 0 :=
    skip_seps_eq_stop _ 0 (Or.inr ⟨a0, hg0, digits_not_sep a0 ha0⟩) 0 le_rfl
      (fun i h1 h2 => absurd h2 (by omega))
  have hget0 : ∀ hh : (0 : ℕ) < (a0 :: A').length,
      (a0 :: A').get ⟨0, hh⟩ = a0 := fun hh => rfl
  have hnums : skip_numbers (a0 :: A') 0 = (a0 :: A').length :=
    skip_numbers_eq_stop _ _ (Or.inl (List.get?_eq_none.mpr le_rfl)) 0
      (Nat.zero_le _)
      (fun i _ hi => ⟨(a0 :: A').get ⟨i, hi⟩,
        List.get?_eq_some.mpr ⟨hi, rfl⟩, hAd _ (List.get_mem _ i hi)⟩)
  rw [parse_number]
  simp only [hskip0]
  rw [dif_pos hlen0]
  simp only [hget0]
  rw [if_pos (digits_sub_numberic a0 ha0)]
  simp only [if_neg (digits_ne_minus a0 ha0)]
  simp only [hg0]
  rw [if_pos ha0]
  simp only [hnums]
  rw [dif_neg (by omega : ¬(a0 :: A').length < (a0 :: A').length)]
  rw [pySlice_full, pyInt_digits hAd]

/-- On a canonical decimal `⟨digits⟩.⟨digits⟩` the scanner consumes everything
and decodes the literal as the exact fractional value. -/
theorem parse_number_digits_float (A B : List Char) (hAne : A ≠ [])
    (hBne : B ≠ []) (hAd : ∀ c ∈ A, c ∈ numbers)
    (hBd : ∀ c ∈ B, c ∈ numbers) :
    parse_number (A ++ decimal_point :: B) 0 =
      .ok ((A ++ decimal_point :: B).length,
        .float ((digitsToNat A : ℚ) + (digitsToNat B : ℚ) /
          (10 : ℚ) ^ B.length)) := by
  obtain ⟨a0, A', rfl⟩ := List.exists_cons_of_ne_nil hAne
  obtain ⟨b0, B', rfl⟩ := List.exists_cons_of_ne_nil hBne
  have ha0 : a0 ∈ numbers := hAd a0 (by simp)
  have hb0 : b0 ∈ numbers := hBd b0 (by simp)
  have hd2 : (a0 :: A') ++ decimal_point :: b0 :: B' =
      ((a0 :: A') ++ [decimal_point]) ++ (b0 :: B') := by simp
  have hdlen : ((a0 :: A') ++ decimal_point :: b0 :: B').length =
      (a0 :: A').length + 1 + (b0 :: B').length := by simp; omega
  have hg0 : ((a0 :: A') ++ decimal_point :: b0 :: B').get? 0 = some a0 := rfl
  have hlen0 : (0 : ℕ) < ((a0 :: A') ++ decimal_point :: b0 :: B').length := by
    simp
  have hskip0 : skip_seps ((a0 :: A') ++ decimal_point :: b0 :: B') 0 = 0 :=
    skip_seps_eq_stop _ 0 (Or.inr ⟨a0, hg0, digits_not_sep a0 ha0⟩) 0 le_rfl
      (fun i h1 h2 => absurd h2 (by omega))
  have hget0 : ∀ hh : (0 : ℕ) < ((a0 :: A') ++ decimal_point :: b0 :: B').length,
      ((a0 :: A') ++ decimal_point :: b0 :: B').get ⟨0, hh⟩ = a0 :=
    fun hh => rfl
  have hgA : ((a0 :: A') ++ decimal_point :: b0 :: B').get? (a0 :: A').length =
      some decimal_point := by
    rw [List.get?_append_right le_rfl]
    simp
  have hrun : ∀ i, 0 ≤ i → i < (a0 :: A').length →
      ∃ c, ((a0 :: A') ++ decimal_point :: b0 :: B').get? i = some c ∧
        c ∈ numbers := by
    intro i _ hi
    refine ⟨(a0 :: A').get ⟨i, hi⟩, ?_, hAd _ (List.get_mem _ i hi)⟩
    rw [List.get?_append hi]
    exact List.get?_eq_some.mpr ⟨hi, rfl⟩
  have hnums : skip_numbers ((a0 :: A') ++ decimal_point :: b0 :: B') 0 =
      (a0 :: A').length :=
    skip_numbers_eq_stop _ _
      (Or.inr ⟨decimal_point, hgA, point_not_digit⟩) 0 (Nat.zero_le _) hrun
  have hAlt : (a0 :: A').length <
      ((a0 :: A') ++ decimal_point :: b0 :: B').length := by
    omega
  have hgetA : ∀ hh : (a0 :: A').length <
      ((a0 :: A') ++ decimal_point :: b0 :: B').length,
      ((a0 :: A') ++ decimal_point :: b0 :: B').get
        ⟨(a0 :: A').length, hh⟩ = decimal_point := by
    intro hh
    obtain ⟨h', e⟩ := List.get?_eq_some.mp hgA
    exact e
  have hgB : ((a0 :: A') ++ decimal_point :: b0 :: B').get?
      ((a0 :: A').length + 1) = some b0 := by
    rw [hd2, List.get?_append_right (by simp)]
    simp
  have hrunB : ∀ i, (a0 :: A').length + 1 ≤ i →
      i < ((a0 :: A') ++ decimal_point :: b0 :: B').length →
      ∃ c, ((a0 :: A') ++ decimal_point :: b0 :: B').get? i = some c ∧
        c ∈ numbers := by
    intro i h1 h2
    have hj : i - ((a0 :: A').length + 1) < (b0 :: B').length := by omega
    refine ⟨(b0 :: B').get ⟨i - ((a0 :: A').length + 1), hj⟩, ?_,
      hBd _ (List.get_mem _ _ hj)⟩
    have hlen1 : ((a0 :: A') ++ [decimal_point]).length =
        (a0 :: A').length + 1 := by simp
    rw [hd2, List.get?_append_right (by rw [hlen1]; omega), hlen1]
    exact List.get?_eq_some.mpr ⟨hj, rfl⟩
  have hnums2 : skip_numbers ((a0 :: A') ++ decimal_point :: b0 :: B')
      ((a0 :: A').length + 1) =
      ((a0 :: A') ++ decimal_point :: b0 :: B').length :=
    skip_numbers_eq_stop _ _ (Or.inl (List.get?_eq_none.mpr le_rfl)) _
      (by omega) hrunB
  rw [parse_number]
  simp only [hskip0]
  rw [dif_pos hlen0]
  simp only [hget0]
  rw [if_pos (digits_sub_numberic a0 ha0)]
  simp only [if_neg (digits_ne_minus a0 ha0)]
  simp only [hg0]
  rw [if_pos ha0]
  simp only [hnums]
  rw [dif_pos hAlt]
  simp only [hgetA]
  simp only [if_true]
  simp only [hgB]
  rw [if_pos hb0]
  simp only [hnums2]
  rw [pySlice_full]
  rw [show (a0 :: A') ++ decimal_point :: b0 :: B' =
    a0 :: (A' ++ decimal_point :: b0 :: B') from rfl,
    pyFloat_of_head_digit ha0,
    show a0 :: (A' ++ decimal_point :: b0 :: B') =
    (a0 :: A') ++ decimal_point :: b0 :: B' from rfl,
    pyFracVal_append _ _ hAd]

/-- On a minus sign followed by a non-empty digit run the scanner consumes
everything and decodes a negative integer. -/
theorem parse_number_digits_int_neg (A : List Char) (hne : A ≠ [])
    (hAd : ∀ c ∈ A, c ∈ numbers) :
    parse_number ('-' :: A) 0 =
      .ok (A.length + 1, .int (-(digitsToNat A : ℤ))) := by
  obtain ⟨a0, A', rfl⟩ := List.exists_cons_of_ne_nil hne
  have ha0 : a0 ∈ numbers := hAd a0 (by simp)
  have hg0 : ('-' :: a0 :: A').get? 0 = some '-' := rfl
  have hlen0 : (0 : ℕ) < ('-' :: a0 :: A').length := by simp
  have hskip0 : skip_seps ('-' :: a0 :: A') 0 = 0 :=
    skip_seps_eq_stop _ 0 (Or.inr ⟨'-', hg0, minus_not_sep⟩) 0 le_rfl
      (fun i h1 h2 => absurd h2 (by omega))
  have hget0 : ∀ hh : (0 : ℕ) < ('-' :: a0 :: A').length,
      ('-' :: a0 :: A').get ⟨0, hh⟩ = '-' := fun hh => rfl
  have hg1 : ('-' :: a0 :: A').get? 1 = some a0 := rfl
  have hnums : skip_numbers ('-' :: a0 :: A') 1 = ('-' :: a0 :: A').length :=
    skip_numbers_eq_stop _ _ (Or.inl (List.get?_eq_none.mpr le_rfl)) 1
      (by simp)
      (fun i h1 hi => by
        have hi' : i - 1 < (a0 :: A').length := by
          simp only [List.length_cons] at hi ⊢
          omega
        refine ⟨(a0 :: A').get ⟨i - 1, hi'⟩, ?_,
          hAd _ (List.get_mem _ _ hi')⟩
        conv_lhs => rw [show i = (i - 1) + 1 from by omega]
        have hsome : (a0 :: A').get? (i - 1) =
            some ((a0 :: A').get ⟨i - 1, hi'⟩) :=
          List.get?_eq_some.mpr ⟨hi', rfl⟩
        exact hsome)
  rw [parse_number]
  simp only [hskip0]
  rw [dif_pos hlen0]
  simp only [hget0]
  rw [if_pos (show ('-' : Char) ∈ numberic_chars from minus_mem_numberic)]
  simp only [if_pos (show ('-' : Char) = minus_sign from rfl)]
  simp only [show (0 : ℕ) + 1 = 1 from rfl]
  simp only [hg1]
  rw [if_pos ha0]
  simp only [hnums]
  rw [dif_neg (by omega : ¬('-' :: a0 :: A').length < ('-' :: a0 :: A').length)]
  rw [pySlice_full, pyInt_neg]
  simp

/-- On a minus sign followed by a canonical decimal the scanner consumes
everything and decodes the negated fractional value. -/
theorem parse_number_digits_float_neg (A B : List Char) (hAne : A ≠ [])
    (hBne : B ≠ []) (hAd : ∀ c ∈ A, c ∈ numbers)
    (hBd : ∀ c ∈ B, c ∈ numbers) :
    parse_number ('-' :: (A ++ decimal_point :: B)) 0 =
      .ok ((A ++ decimal_point :: B).length + 1,
        .float (-((digitsToNat A : ℚ) + (digitsToNat B : ℚ) /
          (10 : ℚ) ^ B.length))) := by
  obtain ⟨a0, A', rfl⟩ := List.exists_cons_of_ne_nil hAne
  obtain ⟨b0, B', rfl⟩ := List.exists_cons_of_ne_nil hBne
  have ha0 : a0 ∈ numbers := hAd a0 (by simp)
  have hb0 : b0 ∈ numbers := hBd b0 (by simp)
  have hd2 : (a0 :: A') ++ decimal_point :: b0 :: B' =
      ((a0 :: A') ++ [decimal_point]) ++ (b0 :: B') := by simp
  have hXlen : ((a0 :: A') ++ decimal_point :: b0 :: B').length =
      (a0 :: A').length + 1 + (b0 :: B').length := by simp; omega
  have hgA : ((a0 :: A') ++ decimal_point :: b0 :: B').get? (a0 :: A').length =
      some decimal_point := by
    rw [List.get?_append_right le_rfl]
    simp
  have hgB : ((a0 :: A') ++ decimal_point :: b0 :: B').get?
      ((a0 :: A').length + 1) = some b0 := by
    rw [hd2, List.get?_append_right (by simp)]
    simp
  have hXrun : ∀ j, j < (a0 :: A').length →
      ∃ c, ((a0 :: A') ++ decimal_point :: b0 :: B').get? j = some c ∧
        c ∈ numbers := by
    intro j hj
    refine ⟨(a0 :: A').get ⟨j, hj⟩, ?_, hAd _ (List.get_mem _ j hj)⟩
    rw [List.get?_append hj]
    exact List.get?_eq_some.mpr ⟨hj, rfl⟩
  have hXrunB : ∀ j, (a0 :: A').length + 1 ≤ j →
      j < ((a0 :: A') ++ decimal_point :: b0 :: B').length →
      ∃ c, ((a0 :: A') ++ decimal_point :: b0 :: B').get? j = some c ∧
        c ∈ numbers := by
    intro j h1 h2
    have hj : j - ((a0 :: A').length + 1) < (b0 :: B').length := by omega
    refine ⟨(b0 :: B').get ⟨j - ((a0 :: A').length + 1), hj⟩, ?_,
      hBd _ (List.get_mem _ _ hj)⟩
    have hlen1 : ((a0 :: A') ++ [decimal_point]).length =
        (a0 :: A').length + 1 := by simp
    rw [hd2, List.get?_append_right (by rw [hlen1]; omega), hlen1]
    exact List.get?_eq_some.mpr ⟨hj, rfl⟩
  -- facts about d = '-' :: X
  have hg0 : ('-' :: ((a0 :: A') ++ decimal_point :: b0 :: B')).get? 0 =
      some '-' := rfl
  have hlen0 : (0 : ℕ) <
      ('-' :: ((a0 :: A') ++ decimal_point :: b0 :: B')).length := by simp
  have hskip0 : skip_seps ('-' :: ((a0 :: A') ++ decimal_point :: b0 :: B')) 0 =
      0 :=
    skip_seps_eq_stop _ 0 (Or.inr ⟨'-', hg0, minus_not_sep⟩) 0 le_rfl
      (fun i h1 h2 => absurd h2 (by omega))
  have hget0 : ∀ hh : (0 : ℕ) <
      ('-' :: ((a0 :: A') ++ decimal_point :: b0 :: B')).length,
      ('-' :: ((a0 :: A') ++ decimal_point :: b0 :: B')).get ⟨0, hh⟩ = '-' :=
    fun hh => rfl
  have hg1 : ('-' :: ((a0 :: A') ++ decimal_point :: b0 :: B')).get? 1 =
      some a0 := by
    show ((a0 :: A') ++ decimal_point :: b0 :: B').get? 0 = some a0
    rfl
  have hdlen : ('-' :: ((a0 :: A') ++ decimal_point :: b0 :: B')).length =
      ((a0 :: A') ++ decimal_point :: b0 :: B').length + 1 := by simp
  have hshift : ∀ i, 1 ≤ i →
      ('-' :: ((a0 :: A') ++ decimal_point :: b0 :: B')).get? i =
        ((a0 :: A') ++ decimal_point :: b0 :: B').get? (i - 1) := by
    intro i h1
    conv_lhs => rw [show i = (i - 1) + 1 from by omega]
    rfl
  have hnums : skip_numbers ('-' :: ((a0 :: A') ++ decimal_point :: b0 :: B'))
      1 = (a0 :: A').length + 1 :=
    skip_numbers_eq_stop _ _
      (Or.inr ⟨decimal_point, by
        rw [hshift ((a0 :: A').length + 1) (by omega)]
        simpa using hgA, point_not_digit⟩) 1
      (by omega)
      (fun i h1 hi => by
        obtain ⟨c, hc, hcd⟩ := hXrun (i - 1) (by omega)
        exact ⟨c, by rw [hshift i h1]; exact hc, hcd⟩)
  have hAlt : (a0 :: A').length + 1 <
      ('-' :: ((a0 :: A') ++ decimal_point :: b0 :: B')).length := by
    omega
  have hgetA : ∀ hh : (a0 :: A').length + 1 <
      ('-' :: ((a0 :: A') ++ decimal_point :: b0 :: B')).length,
      ('-' :: ((a0 :: A') ++ decimal_point :: b0 :: B')).get
        ⟨(a0 :: A').length + 1, hh⟩ = decimal_point := by
    intro hh
    have hg : ('-' :: ((a0 :: A') ++ decimal_point :: b0 :: B')).get?
        ((a0 :: A').length + 1) = some decimal_point := by
      rw [hshift ((a0 :: A').length + 1) (by omega)]
      simpa using hgA
    obtain ⟨h', e⟩ := List.get?_eq_some.mp hg
    exact e
  have hgB' : ('-' :: ((a0 :: A') ++ decimal_point :: b0 :: B')).get?
      ((a0 :: A').length + 1 + 1) = some b0 := by
    rw [hshift _ (by omega)]
    simpa using hgB
  have hnums2 : skip_numbers
      ('-' :: ((a0 :: A') ++ decimal_point :: b0 :: B'))
      ((a0 :: A').length + 1 + 1) =
      ('-' :: ((a0 :: A') ++ decimal_point :: b0 :: B')).length :=
    skip_numbers_eq_stop _ _ (Or.inl (List.get?_eq_none.mpr le_rfl)) _
      (by omega)
      (fun i h1 hi => by
        obtain ⟨c, hc, hcd⟩ := hXrunB (i - 1) (by omega) (by omega)
        exact ⟨c, by rw [hshift i (by omega)]; exact hc, hcd⟩)
  rw [parse_number]
  simp only [hskip0]
  rw [dif_pos hlen0]
  simp only [hget0]
  rw [if_pos (show ('-' : Char) ∈ numberic_chars from minus_mem_numberic)]
  simp only [if_pos (show ('-' : Char) = minus_sign from rfl)]
  simp only [show (0 : ℕ) + 1 = 1 from rfl]
  simp only [hg1]
  rw [if_pos ha0]
  simp only [hnums]
  rw [dif_pos hAlt]
  simp only [hgetA]
  simp only [if_true]
  simp only [hgB']
  rw [if_pos hb0]
  simp only [hnums2]
  rw [pySlice_full, pyFloat_neg, pyFracVal_append _ _ hAd, hdlen]

/-! Rational-number facts linking parsed fractional values with the decimal
formatter. -/

theorem nat_decimal_split (n k : ℕ) :
    ((n / 10 ^ k : ℕ) : ℚ) + ((n % 10 ^ k : ℕ) : ℚ) / (10 : ℚ) ^ k =
      (n : ℚ) / (10 : ℚ) ^ k := by
  have h := Nat.div_add_mod n (10 ^ k)
  have h10 : ((10 : ℚ) ^ k) ≠ 0 := by positivity
  have h' : ((10 ^ k * (n / 10 ^ k) + n % 10 ^ k : ℕ) : ℚ) = (n : ℚ) := by
    exact_mod_cast congrArg (Nat.cast : ℕ → ℚ) h
  push_cast at h'
  field_simp
  linarith

/-- Every fractional value produced by `pyFracVal` is a decimal fraction. -/
theorem pyFracVal_div_form (cs : List Char) :
    ∃ (m : ℕ) (k : ℕ), pyFracVal cs = (m : ℚ) / (10 : ℚ) ^ k := by
  rw [pyFracVal]
  refine ⟨digitsToNat (cs.takeWhile (fun c => c ≠ decimal_point)) * 10 ^
    ((cs.dropWhile (fun c => c ≠ decimal_point)).drop 1).length +
    digitsToNat ((cs.dropWhile (fun c => c ≠ decimal_point)).drop 1),
    ((cs.dropWhile (fun c => c ≠ decimal_point)).drop 1).length, ?_⟩
  have h10 : ((10 : ℚ) ^
      ((cs.dropWhile (fun c => c ≠ decimal_point)).drop 1).length) ≠ 0 := by
    positivity
  push_cast
  field_simp

/-- Every value produced by `pyFloat` is a decimal fraction. -/
theorem pyFloat_div_form (cs : List Char) :
    ∃ (m : ℤ) (k : ℕ), pyFloat cs = (m : ℚ) / (10 : ℚ) ^ k := by
  rw [pyFloat]
  split
  · obtain ⟨m, k, hm⟩ := pyFracVal_div_form (cs.drop 1)
    refine ⟨-(m : ℤ), k, ?_⟩
    rw [hm]
    push_cast
    ring
  · obtain ⟨m, k, hm⟩ := pyFracVal_div_form cs
    exact ⟨(m : ℤ), k, by rw [hm]; push_cast; ring⟩

/-- A fractional value returned by a successful `parse_number` is a decimal
fraction. -/
theorem parse_float_div_form {d : List Char} {pos p' : Nat} {q : ℚ}
    (h : parse_number d pos = .ok (p', .float q)) :
    ∃ (m : ℤ) (k : ℕ), q = (m : ℚ) / (10 : ℚ) ^ k := by
  obtain ⟨-, hbr⟩ := parse_number_decode h
  rcases hbr with ⟨n, hv, -, -⟩ | ⟨q', hv, hq', -⟩
  · exact absurd hv (by simp)
  · have : q = q' := by injection hv
    subst this
    rw [hq']
    exact pyFloat_div_form _

theorem rat_den_dvd_of_div {q : ℚ} {m : ℤ} {k : ℕ}
    (h : q = (m : ℚ) / (10 : ℚ) ^ k) : q.den ∣ 10 ^ k := by
  have h2 : q = Rat.divInt m ((10 : ℤ) ^ k) := by
    rw [Rat.divInt_eq_div, h]
    push_cast
    ring
  have h3 := Rat.den_dvd m ((10 : ℤ) ^ k)
  rw [← h2] at h3
  have h4 : ((10 : ℤ) ^ k) = ((10 ^ k : ℕ) : ℤ) := by push_cast; ring
  rw [h4] at h3
  exact_mod_cast h3

/-- A divisor of a power of ten divides the power of ten with exponent itself:
if `n ∣ 10^k` then `n ∣ 10^n`. -/
theorem dvd_ten_pow_self {n k : ℕ} (h : n ∣ 10 ^ k) : n ∣ 10 ^ n := by
  have h25 : (10 : ℕ) = 2 * 5 := rfl
  rw [h25, mul_pow] at h
  obtain ⟨d1, d2, hd1, hd2, rfl⟩ := exists_dvd_and_dvd_of_dvd_mul h
  obtain ⟨α, hαk, rfl⟩ := (Nat.dvd_prime_pow Nat.prime_two).mp hd1
  obtain ⟨β, hβk, rfl⟩ :=
    (Nat.dvd_prime_pow (by norm_num : Nat.Prime 5)).mp hd2
  have h2a : (0 : ℕ) < 2 ^ α := pow_pos (by omega) α
  have h5b : (0 : ℕ) < 5 ^ β := pow_pos (by omega) β
  have hle2 : 2 ^ α ≤ 2 ^ α * 5 ^ β := Nat.le_mul_of_pos_right _ h5b
  have hle5 : 5 ^ β ≤ 2 ^ α * 5 ^ β := Nat.le_mul_of_pos_left _ h2a
  have hα : α ≤ 2 ^ α * 5 ^ β := by
    have := Nat.lt_two_pow α
    omega
  have hβ : β ≤ 2 ^ α * 5 ^ β := by
    have h1 := Nat.lt_two_pow β
    have h2 := Nat.pow_le_pow_left (by omega : 2 ≤ 5) β
    omega
  have : 2 ^ α * 5 ^ β ∣ 2 ^ (2 ^ α * 5 ^ β) * 5 ^ (2 ^ α * 5 ^ β) :=
    mul_dvd_mul (pow_dvd_pow 2 hα) (pow_dvd_pow 5 hβ)
  rw [← mul_pow] at this
  rw [h25]
  exact this

/-- A rational whose denominator divides `10 ^ q.den` is the decimal fraction
with numerator `(q * 10 ^ q.den).num` over `10 ^ q.den`. -/
theorem q_eq_num_div (q : ℚ) (h : q.den ∣ 10 ^ q.den) :
    q = (((q * (10 : ℚ) ^ q.den).num : ℤ) : ℚ) / (10 : ℚ) ^ q.den := by
  obtain ⟨c, hc⟩ := h
  have hden0 : ((q.den : ℚ)) ≠ 0 := by
    exact_mod_cast q.den_nz
  have hcQ : ((10 : ℚ)) ^ q.den = (q.den : ℚ) * (c : ℚ) := by
    exact_mod_cast congrArg (Nat.cast : ℕ → ℚ) hc
  have hz : q * (10 : ℚ) ^ q.den = ((q.num * (c : ℤ) : ℤ) : ℚ) := by
    rw [hcQ, ← mul_assoc, Rat.mul_den_eq_num]
    push_cast
    ring
  have hnum : (q * (10 : ℚ) ^ q.den).num = q.num * (c : ℤ) := by
    rw [hz]
    exact Rat.num_intCast _
  rw [hnum, ← hz]
  have h10 : ((10 : ℚ) ^ q.den) ≠ 0 := by positivity
  field_simp

/-- Re-parsing a formatted integer value recovers it exactly. -/
theorem parse_number_formatInt (n : ℤ) :
    parse_number (formatInt n) 0 = .ok ((formatInt n).length, .int n) := by
  by_cases hn : n < 0
  · rw [formatInt, if_pos hn]
    rw [parse_number_digits_int_neg _ (natToDigits_ne_nil _)
      (natToDigits_mem _)]
    have hval : -(digitsToNat (natToDigits n.natAbs) : ℤ) = n := by
      rw [digitsToNat_natToDigits]
      omega
    rw [hval]
    simp
  · rw [formatInt, if_neg hn]
    rw [parse_number_digits_int _ (natToDigits_ne_nil _) (natToDigits_mem _)]
    have hval : (digitsToNat (natToDigits n.natAbs) : ℤ) = n := by
      rw [digitsToNat_natToDigits]
      omega
    rw [hval]

/-- `padDigits` is non-empty for positive width. -/
theorem padDigits_ne_nil (k n : Nat) (hk : 1 ≤ k) (hn : n < 10 ^ k) :
    padDigits k n ≠ [] :=
  List.ne_nil_of_length_pos (by rw [padDigits_length k n hk hn]; omega)

/-- Re-parsing a formatted fractional value whose denominator divides
`10 ^ q.den` recovers it exactly. -/
theorem parse_number_formatFloat (q : ℚ) (hden : q.den ∣ 10 ^ q.den) :
    parse_number (formatValue (.float q)) 0 =
      .ok ((formatValue (.float q)).length, .float q) := by
  have hq := q_eq_num_div q hden
  have hk1 : 1 ≤ q.den := q.den_pos
  have hpow : (0 : ℕ) < 10 ^ q.den := pow_pos (by omega) q.den
  have hmod : (q * (10 : ℚ) ^ q.den).num.natAbs % 10 ^ q.den < 10 ^ q.den :=
    Nat.mod_lt _ hpow
  have hBlen : (padDigits q.den
      ((q * (10 : ℚ) ^ q.den).num.natAbs % 10 ^ q.den)).length = q.den :=
    padDigits_length _ _ hk1 hmod
  have hBne : padDigits q.den
      ((q * (10 : ℚ) ^ q.den).num.natAbs % 10 ^ q.den) ≠ [] :=
    padDigits_ne_nil _ _ hk1 hmod
  have hvalue : (digitsToNat (natToDigits
        ((q * (10 : ℚ) ^ q.den).num.natAbs / 10 ^ q.den)) : ℚ) +
      (digitsToNat (padDigits q.den
        ((q * (10 : ℚ) ^ q.den).num.natAbs % 10 ^ q.den)) : ℚ) /
        (10 : ℚ) ^ (padDigits q.den
          ((q * (10 : ℚ) ^ q.den).num.natAbs % 10 ^ q.den)).length =
      ((q * (10 : ℚ) ^ q.den).num.natAbs : ℚ) / (10 : ℚ) ^ q.den := by
    rw [digitsToNat_natToDigits, digitsToNat_padDigits, hBlen]
    exact nat_decimal_split _ _
  by_cases hM : (q * (10 : ℚ) ^ q.den).num < 0
  · have hfmt : formatValue (.float q) =
        '-' :: (natToDigits ((q * (10 : ℚ) ^ q.den).num.natAbs / 10 ^ q.den) ++
          decimal_point :: padDigits q.den
            ((q * (10 : ℚ) ^ q.den).num.natAbs % 10 ^ q.den)) := by
      rw [formatValue]
      simp only [if_pos hM]
      rfl
    rw [hfmt, parse_number_digits_float_neg _ _ (natToDigits_ne_nil _) hBne
      (natToDigits_mem _) (padDigits_mem _ _)]
    have hcast : ((q * (10 : ℚ) ^ q.den).num.natAbs : ℚ) =
        -((((q * (10 : ℚ) ^ q.den).num : ℤ) : ℚ)) := by
      have h1 : ((q * (10 : ℚ) ^ q.den).num.natAbs : ℤ) =
          -(q * (10 : ℚ) ^ q.den).num := by omega
      calc ((q * (10 : ℚ) ^ q.den).num.natAbs : ℚ)
          = (((q * (10 : ℚ) ^ q.den).num.natAbs : ℤ) : ℚ) :=
            (Int.cast_natCast _).symm
        _ = ((-(q * (10 : ℚ) ^ q.den).num : ℤ) : ℚ) := by rw [h1]
        _ = -((((q * (10 : ℚ) ^ q.den).num : ℤ) : ℚ)) := Int.cast_neg _
    rw [hvalue, hcast]
    have hqval : -(-(((q * (10 : ℚ) ^ q.den).num : ℤ) : ℚ) /
        (10 : ℚ) ^ q.den) = q := by
      rw [neg_div, neg_neg]
      exact hq.symm
    rw [hqval]
    simp
  · have hfmt : formatValue (.float q) =
        natToDigits ((q * (10 : ℚ) ^ q.den).num.natAbs / 10 ^ q.den) ++
          decimal_point :: padDigits q.den
            ((q * (10 : ℚ) ^ q.den).num.natAbs % 10 ^ q.den) := by
      rw [formatValue]
      simp only [if_neg hM]
      rfl
    rw [hfmt, parse_number_digits_float _ _ (natToDigits_ne_nil _) hBne
      (natToDigits_mem _) (padDigits_mem _ _)]
    have hcast : ((q * (10 : ℚ) ^ q.den).num.natAbs : ℚ) =
        (((q * (10 : ℚ) ^ q.den).num : ℤ) : ℚ) := by
      have h1 : ((q * (10 : ℚ) ^ q.den).num.natAbs : ℤ) =
          (q * (10 : ℚ) ^ q.den).num := by omega
      calc ((q * (10 : ℚ) ^ q.den).num.natAbs : ℚ)
          = (((q * (10 : ℚ) ^ q.den).num.natAbs : ℤ) : ℚ) :=
            (Int.cast_natCast _).symm
        _ = (((q * (10 : ℚ) ^ q.den).num : ℤ) : ℚ) := by rw [h1]
    rw [hvalue, hcast, ← hq]

/-- C9: every numeric value returned by a successful `parse_number` call
round-trips through the (spec-modelled) standard decimal formatter: re-parsing
the formatted text succeeds, consumes it entirely, and returns the same value
of the same kind (the equality is in `Value`, so integers stay integers and
fractional values stay fractional values). -/
theorem C9_format_roundtrip (d : List Char) (pos0 p' : Nat) (v : Value)
    (h : parse_number d pos0 = .ok (p', v)) :
    parse_number (formatValue v) 0 = .ok ((formatValue v).length, v) := by
  cases v with
  | int n => exact parse_number_formatInt n
  | float q =>
    obtain ⟨m, k, hq⟩ := parse_float_div_form h
    exact parse_number_formatFloat q (dvd_ten_pow_self (rat_den_dvd_of_div hq))

/-- Witness for C9: `parse_number "1.5" 0` succeeds with the fractional value
3/2, whose formatted text re-parses to the same value. -/
theorem C9_format_roundtrip_witness :
    parse_number (formatValue (.float (3/2))) 0 =
      .ok ((formatValue (.float (3/2))).length, .float (3/2)) :=
  C9_format_roundtrip ['1', '.', '5'] 0 3 (.float (3/2))
    (by
      have h1 : parse_number ['1', '.', '5'] 0 =
          .ok (3, .float (pyFloat ['1', '.', '5'])) := by
        rw [← parse_number_run_eq]; rfl
      have h2 : pyFloat ['1', '.', '5'] = pyFracVal ['1', '.', '5'] := rfl
      have h3 : pyFracVal ['1', '.', '5'] = 3/2 := by
        simp [pyFracVal, decimal_point, digitsToNat, digitVal,
          List.takeWhile_cons, List.dropWhile_cons]
        norm_num
      rw [h1, h2, h3])

end Svg
